import Mathlib

/-!
# Decode hooks of `lib/decode/decode.go`

A shallow embedding of the two mapstructure decode hooks of package `decode`
(`HookTranslateKeys` and `HookNormalizeHCLNestedBlocks`) and the properties
their specification states about them.

* Go maps `map[string]T` are association lists without duplicate keys
  (`AList`); reading a key is `AList.lookup`, `delete` is `AList.erase` and
  an assignment `m[k] = v` is `AList.insert`.
* A `reflect.Type` is reduced to what the hooks ask of it: its kind and
  whether `DecodeKeyMapping` is in its method set or in that of its pointer
  type.
* `strings.ToLower` belongs to the Go standard library; it is a parameter
  `toLower` of every definition that needs it.
* Ranging over a map while mutating it has no fixed order in Go.  The loop
  of `HookTranslateKeys` takes the visiting order as an argument, and
  `permitted` says which orders the language allows.
-/

namespace Decode

/-- The kinds of `reflect.Kind`. -/
inductive Kind
  | Invalid | Bool | Int | Int8 | Int16 | Int32 | Int64
  | Uint | Uint8 | Uint16 | Uint32 | Uint64 | Uintptr
  | Float32 | Float64 | Complex64 | Complex128
  | Array | Chan | Func | Interface | Map | Ptr | Slice | String | Struct
  | UnsafePointer
  deriving DecidableEq, Repr

/-- A Go `map[string]string`: the value `DecodeKeyMapping` returns, from
lower case deprecated key to canonical key. -/
abbrev Rules := AList (fun _ : String => String)

/-- A Go `map[string]interface{}` whose values are of type `V`. -/
abbrev GoMap (V : Type) := AList (fun _ : String => V)

/-- What the hooks read of a `reflect.Type`.

`valueMethod = some R`: `DecodeKeyMapping` is in the method set of the type
itself (`to.Implements(typeOfKeyTranslator)`), and `R` is what it returns on
the zero value of the type.
`pointerMethod = some R`: `DecodeKeyMapping` is in the method set of the
pointer type (`reflect.PtrTo(to).Implements(typeOfKeyTranslator)`), and `R`
is what it returns on `reflect.New(to)`. -/
structure GoType where
  kind : Kind
  valueMethod : Option Rules
  pointerMethod : Option Rules

/-- The dynamic value held by the `data interface{}` argument of a hook, as
far as the type switches of the hooks tell values apart. -/
inductive Data (V : Type)
  /-- the nil interface value -/
  | null : Data V
  /-- a value of dynamic type `map[string]interface{}` -/
  | mapping (m : GoMap V) : Data V
  /-- a value of dynamic type `[]map[string]interface{}` -/
  | mapSlice (ms : List (GoMap V)) : Data V
  /-- a value of any other dynamic type -/
  | other (v : V) : Data V
  deriving DecidableEq

/-- The error values the hooks return.  The only one is built by
`fmt.Errorf("HCL nested block with more than one element is not supported: %s", data)`
and is represented by the data it formats. -/
inductive HookError (V : Type)
  | nestedBlockMultipleElements (data : Data V) : HookError V
  deriving DecidableEq

/-- The outcome of the `switch` that obtains the translator
(`decode.go` lines 52-60). -/
inductive Translator
  /-- The `default` case: neither the type nor its pointer type implements `KeyTranslator` -/
  | absent : Translator
  /-- the non-comma-ok type assertion `.(KeyTranslator)` ran on a nil interface -/
  | panics : Translator
  /-- a translator was built and `DecodeKeyMapping()` returned these rules -/
  | rules (r : Rules) : Translator

/-- Lines 52-62 of `decode.go`: the translator of the destination type and the
rules it returns.  `reflect.Zero(to).Interface()` is the nil interface when
`to` is itself an interface type, and asserting `.(KeyTranslator)` on it
panics; for every other kind the zero value is a concrete value. -/
def translatorOf (dst : GoType) : Translator :=
  match dst.valueMethod with
  | some r => if dst.kind = Kind.Interface then Translator.panics else Translator.rules r
  | none =>
    match dst.pointerMethod with
    | some r => Translator.rules r
    | none => Translator.absent

/-- The body of the range loop of `HookTranslateKeys` (lines 64-77) for the
entry `(k, v)` the range clause produced. -/
def translateEntry {V : Type} (toLower : String → String) (rules : Rules)
    (target : GoMap V) (k : String) (v : V) : GoMap V :=
  match rules.lookup (toLower k) with
  | none => target
  | some canonKey =>
    if (target.lookup canonKey).isSome then target
    else (target.erase k).insert canonKey v

/-- The range loop of `HookTranslateKeys` (lines 63-78) under the visiting
order `order`: the keys are produced in that order, each with the value the
map holds for it at that moment; a key the map does not hold is not
produced. -/
def rangeLoop {V : Type} (toLower : String → String) (rules : Rules) :
    List String → GoMap V → GoMap V
  | [], target => target
  | k :: rest, target =>
    match target.lookup k with
    | none => rangeLoop toLower rules rest target
    | some v => rangeLoop toLower rules rest (translateEntry toLower rules target k v)

/-- The keys the map holds after an iteration that it did not hold before:
the entries created by that iteration. -/
def createdBy {V : Type} (before after : GoMap V) : List String :=
  after.keys.filter (fun x => (before.lookup x).isNone)

/-- Go's rules for `range` over a map that the body mutates, as a check of a
visiting order.  `unreached` are the entries of the map at loop entry that
were not produced yet, `created` the entries inserted during the loop that
were not produced since.  A produced key is held by the map and is in one of
the two lists; an entry created during the loop may be produced or skipped;
the loop ends only when every entry it started with was produced or is
gone.  (The body deletes no entry but the one just produced.) -/
def permitted {V : Type} (toLower : String → String) (rules : Rules) :
    List String → List String → List String → GoMap V → Bool
  | [], unreached, _, target => unreached.all (fun k => (target.lookup k).isNone)
  | k :: rest, unreached, created, target =>
    match target.lookup k with
    | none => false
    | some v =>
      (decide (k ∈ unreached) || decide (k ∈ created)) &&
        permitted toLower rules rest
          (unreached.filter (fun x => decide (x ≠ k)))
          (created.filter (fun x => decide (x ≠ k)) ++
            createdBy target (translateEntry toLower rules target k v))
          (translateEntry toLower rules target k v)

/-- The visiting orders Go permits for the loop started on the map `m`. -/
def permittedOrder {V : Type} (toLower : String → String) (rules : Rules)
    (order : List String) (m : GoMap V) : Bool :=
  permitted toLower rules order m.keys [] m

/-- The hook `HookTranslateKeys` (lines 38-80).  `order` is the order in which the
range loop visits the keys; the result `none` is a run-time panic, and
`some (value, err)` the two returned values (`err = none` is a nil error).
The parameters `from` and `to` of the source are `_src` and `dst` here. -/
def HookTranslateKeys {V : Type} (toLower : String → String) (order : List String)
    (_src dst : GoType) (data : Data V) : Option (Data V × Option (HookError V)) :=
  if dst.kind = Kind.Ptr then some (data, none)
  else
    match data with
    | Data.mapping target =>
      match translatorOf dst with
      | Translator.absent => some (data, none)
      | Translator.panics => none
      | Translator.rules rules =>
        some (Data.mapping (rangeLoop toLower rules order target), none)
    | _ => some (data, none)

/-- The hook `HookNormalizeHCLNestedBlocks` (lines 94-113): the returned value and
the returned error (`none` is a nil error).  The parameters `from` and `to`
of the source are `src` and `dst` here. -/
def HookNormalizeHCLNestedBlocks {V : Type} (src dst : GoType) (data : Data V) :
    Data V × Option (HookError V) :=
  if src.kind = Kind.Slice ∧ (dst.kind = Kind.Slice ∨ dst.kind = Kind.Array) then (data, none)
  else
    match data with
    | Data.mapSlice d =>
      match d with
      | [] => (Data.null, none)
      | [e] => (Data.mapping e, none)
      | _ :: _ :: _ => (data, some (HookError.nestedBlockMultipleElements data))
    | _ => (data, none)

/-- The function `strings.ToLower` on strings of ASCII characters, for concrete inputs. -/
def asciiLower (s : String) : String := String.mk (s.data.map Char.toLower)

/-- Builds a map from a list of entries; an earlier entry wins over a later
one with the same key. -/
def mapOf {V : Type} (entries : List (String × V)) : AList (fun _ : String => V) :=
  entries.foldr (fun e acc => acc.insert e.1 e.2) ∅

/-- The guard of line 95: the source is a slice and the destination is a
slice or an array. -/
def sequenceToSequence (src dst : GoType) : Prop :=
  src.kind = Kind.Slice ∧ (dst.kind = Kind.Slice ∨ dst.kind = Kind.Array)

instance (src dst : GoType) : Decidable (sequenceToSequence src dst) := by
  unfold sequenceToSequence; infer_instance

/-- A struct type without `DecodeKeyMapping`, for concrete inputs. -/
def plainStruct : GoType := ⟨Kind.Struct, none, none⟩

/-- The type `[]map[string]interface{}`, for concrete inputs. -/
def sliceOfMaps : GoType := ⟨Kind.Slice, none, none⟩

/-- The type `interface{}`, for concrete inputs. -/
def emptyInterface : GoType := ⟨Kind.Interface, none, none⟩

/-- A pointer to a struct type whose `DecodeKeyMapping` has a value receiver
and returns `r`, for concrete inputs. -/
def pointerToTranslator (r : Rules) : GoType := ⟨Kind.Ptr, some r, some r⟩

/-- The type `map[string]interface{}`, for concrete inputs. -/
def mapOfInterfaces : GoType := ⟨Kind.Map, none, none⟩

/-- A struct type whose `DecodeKeyMapping` has a value receiver and returns
`r`: the method is in the method set of the type and of its pointer type. -/
def structWithMapping (r : Rules) : GoType := ⟨Kind.Struct, some r, some r⟩

/-- A struct type whose `DecodeKeyMapping` has a pointer receiver and returns
`r`: the method is in the method set of the pointer type only. -/
def structWithPointerMapping (r : Rules) : GoType := ⟨Kind.Struct, none, some r⟩

/-- The mapping of `TypeStruct.DecodeKeyMapping` in `decode_test.go`. -/
def typeStructRules : Rules := mapOf [("oldone", "One"), ("oldtwo", "two")]

/-- The type `TypeStruct` of `decode_test.go` (value receiver). -/
def TypeStruct : GoType := structWithMapping typeStructRules

/-- The mapping of `TypePtrToStruct.DecodeKeyMapping` in `decode_test.go`. -/
def typePtrToStructRules : Rules :=
  mapOf [("old_three", "Three"), ("old_four", "four"), ("oldfour", "four")]

/-- The type `TypePtrToStruct` of `decode_test.go` (pointer receiver). -/
def TypePtrToStruct : GoType := structWithPointerMapping typePtrToStructRules

/-- The data of the test case "target of type struct, with struct receiver". -/
def structReceiverData : GoMap String :=
  mapOf [("None", "no translation"), ("OldOne", "value1"), ("oldtwo", "value2")]

/-- The data of `TestHookTranslateKeys_TargetStructHasPointerReceiver`. -/
def pointerReceiverData : GoMap String :=
  mapOf [("None", "no translation"), ("Old_Three", "value3"), ("OldFour", "value4")]

/-- The data of the test case "value already exists for canonical key". -/
def canonicalPresentData : GoMap String :=
  mapOf [("OldOne", "value1"), ("One", "original1"), ("oldTWO", "value2"),
    ("two", "original2")]

/-- A map with two spellings of the deprecated key `oldone`. -/
def twoSpellings : GoMap String := mapOf [("OldOne", "value1"), ("oldone", "value2")]

/-- Rules with a chain: the canonical key `b` is itself a deprecated key. -/
def chainRules : Rules := mapOf [("a", "b"), ("b", "c")]

/-- A map that holds both keys of `chainRules`. -/
def chainData : GoMap String := mapOf [("a", "1"), ("b", "2")]

/-- No canonical key of the rules lowercases to a deprecated key of the
rules: the rules hold no renaming chain. -/
def NoChain (toLower : String → String) (rules : Rules) : Prop :=
  ∀ d c, rules.lookup d = some c → rules.lookup (toLower c) = none

/-- Every entry of the map `t` stems from an entry of `m`: it has the value of
an entry of `m` and sits under the key of that entry or under the canonical
key the rules give for it. -/
def StemsFrom {V : Type} (toLower : String → String) (rules : Rules) (m t : GoMap V) : Prop :=
  ∀ x w, t.lookup x = some w →
    m.lookup x = some w ∨ ∃ k, m.lookup k = some w ∧ rules.lookup (toLower k) = some x

/-- The state of one deprecated key `k` with canonical key `c` during the loop:
either `k` is still to be produced and sits in the map with its value while
`c` is absent, or `k` was produced and its value sits under `c`. -/
def MovePhase {V : Type} (k c : String) (v : V) (u : List String) (t : GoMap V) : Prop :=
  (k ∈ u ∧ t.lookup k = some v ∧ t.lookup c = none) ∨
    (k ∉ u ∧ t.lookup c = some v ∧ t.lookup k = none)

/-- The keys of the map that lowercase to a deprecated key have pairwise
distinct canonical keys. -/
def DistinctCanonical {V : Type} (toLower : String → String) (rules : Rules)
    (m : GoMap V) : Prop :=
  ∀ k1 k2 c, k1 ∈ m → k2 ∈ m → rules.lookup (toLower k1) = some c →
    rules.lookup (toLower k2) = some c → k1 = k2

/-- None of the canonical keys of the keys of the map is a key of the map. -/
def CanonicalFree {V : Type} (toLower : String → String) (rules : Rules)
    (m : GoMap V) : Prop :=
  ∀ k c, k ∈ m → rules.lookup (toLower k) = some c → m.lookup c = none

/-- The data of the test case with the field `PTRS` of `decode_test.go`. -/
def embeddedPointerData : GoMap String :=
  mapOf [("None", "no translation"), ("old_THREE", "value3"), ("old_four", "value4")]

/-- The values a map holds, one for each entry. -/
def values {V : Type} (m : GoMap V) : List V :=
  m.entries.map (fun e => e.2)

/-- The interface type `KeyTranslator` itself: `DecodeKeyMapping` is in its
method set, and its pointer type has no method.  An interface type has no
value to call the method on, so the mapping given here is never read. -/
def keyTranslatorInterface : GoType := ⟨Kind.Interface, some ∅, none⟩

/-- The type descriptor a host passes as source type for a value: that of
`map[string]interface{}` or `[]map[string]interface{}` for values of these
types; every other value is given the descriptor of `interface{}`, which no
hook tells apart from the value's own. -/
def dynamicType {V : Type} : Data V → GoType
  | Data.mapping _ => mapOfInterfaces
  | Data.mapSlice _ => sliceOfMaps
  | _ => emptyInterface

/-- Applies `HookTranslateKeys` and then `HookNormalizeHCLNestedBlocks` to its
output, as a host that stops at the first error does; `typeOf` gives the
source type the host passes along with a value. -/
def translateThenNormalize {V : Type} (toLower : String → String) (order : List String)
    (typeOf : Data V → GoType) (dst : GoType) (data : Data V) :
    Option (Data V × Option (HookError V)) :=
  match HookTranslateKeys toLower order (typeOf data) dst data with
  | none => none
  | some (out, none) => some (HookNormalizeHCLNestedBlocks (typeOf out) dst out)
  | some (out, some err) => some (out, some err)

/-- Applies `HookNormalizeHCLNestedBlocks` and then `HookTranslateKeys` to its
output, as a host that stops at the first error does; `typeOf` gives the
source type the host passes along with a value. -/
def normalizeThenTranslate {V : Type} (toLower : String → String) (order : List String)
    (typeOf : Data V → GoType) (dst : GoType) (data : Data V) :
    Option (Data V × Option (HookError V)) :=
  match HookNormalizeHCLNestedBlocks (typeOf data) dst data with
  | (out, none) => HookTranslateKeys toLower order (typeOf out) dst out
  | (out, some err) => some (out, some err)

/-- A one-element sequence of maps whose element holds a deprecated key of
`TypeStruct`. -/
def wrappedDeprecated : Data String := Data.mapSlice [mapOf [("OldOne", "value1")]]

/-- A one-element sequence of maps whose element holds no deprecated key of
`TypeStruct`. -/
def wrappedCanonical : Data String := Data.mapSlice [mapOf [("None", "no translation")]]

/-- No key of the map can be renamed: each key either does not lowercase to a
deprecated key or has its canonical key in the map. -/
def Settled {V : Type} (toLower : String → String) (rules : Rules) (t : GoMap V) : Prop :=
  ∀ k v, t.lookup k = some v →
    rules.lookup (toLower k) = none ∨
      ∃ c w, rules.lookup (toLower k) = some c ∧ t.lookup c = some w

/-- The keys of the map that were produced already (those not in `u`) can no
longer be renamed. -/
def SettledOutside {V : Type} (toLower : String → String) (rules : Rules)
    (u : List String) (t : GoMap V) : Prop :=
  ∀ k v, t.lookup k = some v → k ∉ u →
    rules.lookup (toLower k) = none ∨
      ∃ c w, rules.lookup (toLower k) = some c ∧ t.lookup c = some w

/-- A map with the single deprecated key `a` of `chainRules`. -/
def chainStart : GoMap String := mapOf [("a", "1")]

/-- No two keys of the map lowercase to deprecated keys with the same
canonical key, unless the map holds that canonical key. -/
def NoSharedFreeCanonical {V : Type} (toLower : String → String) (rules : Rules)
    (m : GoMap V) : Prop :=
  ∀ k1 k2 c, k1 ∈ m → k2 ∈ m → rules.lookup (toLower k1) = some c →
    rules.lookup (toLower k2) = some c → m.lookup c = none → k1 = k2

/-- The source type fits the value, as the type `reflect.TypeOf(data)` that a
host passes along with a value does: a sequence of maps is a value of a
slice type.  (The hooks read nothing of the source type for other values.) -/
def FitsValue {V : Type} (src : GoType) : Data V → Prop
  | Data.mapSlice _ => src.kind = Kind.Slice
  | _ => True

/-! ## Lemmas on the hooks and on the range loop -/

theorem normalize_guard {V : Type} (src dst : GoType) (data : Data V)
    (h : sequenceToSequence src dst) :
    HookNormalizeHCLNestedBlocks src dst data = (data, none) := by
  unfold sequenceToSequence at h
  simp [HookNormalizeHCLNestedBlocks, h]

theorem normalize_no_guard {V : Type} (src dst : GoType) (data : Data V)
    (h : ¬ sequenceToSequence src dst) :
    HookNormalizeHCLNestedBlocks src dst data =
      match data with
      | Data.mapSlice [] => (Data.null, none)
      | Data.mapSlice [e] => (Data.mapping e, none)
      | Data.mapSlice (_ :: _ :: _) => (data, some (HookError.nestedBlockMultipleElements data))
      | _ => (data, none) := by
  unfold sequenceToSequence at h
  unfold HookNormalizeHCLNestedBlocks
  rw [if_neg h]
  cases data with
  | mapSlice ms =>
    cases ms with
    | nil => rfl
    | cons a t => cases t <;> rfl
  | _ => rfl

theorem translateEntry_cases {V : Type} (toLower : String → String) (rules : Rules)
    (target : GoMap V) (k : String) (v : V) :
    translateEntry toLower rules target k v = target ∨
      ∃ c, rules.lookup (toLower k) = some c ∧ target.lookup c = none ∧
        translateEntry toLower rules target k v = (target.erase k).insert c v := by
  unfold translateEntry
  cases hr : rules.lookup (toLower k) with
  | none => exact Or.inl rfl
  | some c =>
    cases hc : target.lookup c with
    | none => exact Or.inr ⟨c, rfl, hc, by simp [hc]⟩
    | some w => exact Or.inl (by simp [hc])

theorem translateEntry_of_none {V : Type} (toLower : String → String) (rules : Rules)
    (target : GoMap V) (k : String) (v : V) (h : rules.lookup (toLower k) = none) :
    translateEntry toLower rules target k v = target := by
  simp [translateEntry, h]

theorem translateEntry_of_present {V : Type} (toLower : String → String) (rules : Rules)
    (target : GoMap V) (k : String) (v : V) (c : String) (w : V)
    (h : rules.lookup (toLower k) = some c) (hc : target.lookup c = some w) :
    translateEntry toLower rules target k v = target := by
  simp [translateEntry, h, hc]

theorem translateEntry_of_absent {V : Type} (toLower : String → String) (rules : Rules)
    (target : GoMap V) (k : String) (v : V) (c : String)
    (h : rules.lookup (toLower k) = some c) (hc : target.lookup c = none) :
    translateEntry toLower rules target k v = (target.erase k).insert c v := by
  simp [translateEntry, h, hc]

theorem lookup_rename {V : Type} (target : GoMap V) (k c : String) (v : V) (y : String) :
    ((target.erase k).insert c v).lookup y =
      if y = c then some v else if y = k then none else target.lookup y := by
  by_cases hyc : y = c
  · subst hyc
    simp
  · rw [AList.lookup_insert_ne hyc, if_neg hyc]
    by_cases hyk : y = k
    · subst hyk
      simp
    · rw [AList.lookup_erase_ne hyk, if_neg hyk]

/-- An entry other than the produced one is neither deleted nor overwritten
by an iteration. -/
theorem translateEntry_lookup_of_ne {V : Type} (toLower : String → String) (rules : Rules)
    (target : GoMap V) (k : String) (v : V) (y : String) (w : V)
    (hne : y ≠ k) (hy : target.lookup y = some w) :
    (translateEntry toLower rules target k v).lookup y = some w := by
  rcases translateEntry_cases toLower rules target k v with h | ⟨c, _, hc, h⟩
  · rw [h]; exact hy
  · rw [h, lookup_rename, if_neg, if_neg hne]
    · exact hy
    · intro hyc
      rw [hyc, hc] at hy
      cases hy

/-- The loop under an order that starts with a key the map holds. -/
theorem rangeLoop_cons_of_lookup {V : Type} (toLower : String → String) (rules : Rules)
    (k : String) (rest : List String) (target : GoMap V) (v : V)
    (h : target.lookup k = some v) :
    rangeLoop toLower rules (k :: rest) target =
      rangeLoop toLower rules rest (translateEntry toLower rules target k v) := by
  simp [rangeLoop, h]

theorem rangeLoop_cons_of_absent {V : Type} (toLower : String → String) (rules : Rules)
    (k : String) (rest : List String) (target : GoMap V)
    (h : target.lookup k = none) :
    rangeLoop toLower rules (k :: rest) target = rangeLoop toLower rules rest target := by
  simp [rangeLoop, h]

/-- A property of the map that every iteration keeps holds after the loop,
under every order. -/
theorem rangeLoop_invariant {V : Type} (toLower : String → String) (rules : Rules)
    (P : GoMap V → Prop)
    (step : ∀ t k v, P t → t.lookup k = some v → P (translateEntry toLower rules t k v))
    (order : List String) (target : GoMap V) (h : P target) :
    P (rangeLoop toLower rules order target) := by
  induction order generalizing target with
  | nil => exact h
  | cons k rest ih =>
    cases hk : target.lookup k with
    | none => rw [rangeLoop_cons_of_absent _ _ _ _ _ hk]; exact ih target h
    | some v =>
      rw [rangeLoop_cons_of_lookup _ _ _ _ _ _ hk]
      exact ih _ (step target k v h hk)

/-- A property of the map and of the entries not yet produced that every
iteration keeps holds after the loop under a permitted order, at which point
no unreached entry is left in the map. -/
theorem permitted_invariant {V : Type} (toLower : String → String) (rules : Rules)
    (P : List String → GoMap V → Prop)
    (step : ∀ u t k v, P u t → t.lookup k = some v →
      P (u.filter (fun x => decide (x ≠ k))) (translateEntry toLower rules t k v))
    (order unreached created : List String) (target : GoMap V) (h : P unreached target)
    (hp : permitted toLower rules order unreached created target = true) :
    ∃ u, P u (rangeLoop toLower rules order target) ∧
      ∀ y ∈ u, (rangeLoop toLower rules order target).lookup y = none := by
  induction order generalizing unreached created target with
  | nil =>
    refine ⟨unreached, h, ?_⟩
    intro y hy
    simp only [permitted, List.all_eq_true] at hp
    have := hp y hy
    simpa [rangeLoop] using this
  | cons k rest ih =>
    cases hk : target.lookup k with
    | none => simp [permitted, hk] at hp
    | some v =>
      rw [rangeLoop_cons_of_lookup _ _ _ _ _ _ hk]
      simp only [permitted, hk, Bool.and_eq_true] at hp
      exact ih _ _ _ (step unreached target k v h hk) hp.2

/-- The hook on a map, for a destination type that is not a pointer and whose
translator returns `rules`. -/
theorem translate_eq_rangeLoop {V : Type} (toLower : String → String)
    (order : List String) (src dst : GoType) (rules : Rules) (m : GoMap V)
    (hkind : dst.kind ≠ Kind.Ptr) (htr : translatorOf dst = Translator.rules rules) :
    HookTranslateKeys toLower order src dst (Data.mapping m) =
      some (Data.mapping (rangeLoop toLower rules order m), none) := by
  simp [HookTranslateKeys, hkind, htr]

theorem stemsFrom_refl {V : Type} (toLower : String → String) (rules : Rules) (m : GoMap V) :
    StemsFrom toLower rules m m :=
  fun _ _ h => Or.inl h

theorem stemsFrom_step {V : Type} (toLower : String → String) (rules : Rules)
    (hchain : NoChain toLower rules) (m t : GoMap V) (k : String) (v : V)
    (h : StemsFrom toLower rules m t) (hk : t.lookup k = some v) :
    StemsFrom toLower rules m (translateEntry toLower rules t k v) := by
  rcases translateEntry_cases toLower rules t k v with he | ⟨c, hr, _, he⟩
  · rw [he]; exact h
  · rw [he]
    intro x w hx
    rw [lookup_rename] at hx
    by_cases hxc : x = c
    · rw [if_pos hxc] at hx
      cases hx
      rcases h k v hk with hm | ⟨k0, _, hr0⟩
      · exact Or.inr ⟨k, hm, hxc ▸ hr⟩
      · rw [hchain _ _ hr0] at hr
        cases hr
    · rw [if_neg hxc] at hx
      by_cases hxk : x = k
      · rw [if_pos hxk] at hx
        cases hx
      · rw [if_neg hxk] at hx
        exact h x w hx

/-- After the loop every entry stems from an entry of the map the loop
started on, when the rules hold no chain; the order does not matter. -/
theorem rangeLoop_stemsFrom {V : Type} (toLower : String → String) (rules : Rules)
    (hchain : NoChain toLower rules) (order : List String) (m : GoMap V) :
    StemsFrom toLower rules m (rangeLoop toLower rules order m) :=
  rangeLoop_invariant toLower rules (StemsFrom toLower rules m)
    (fun t k v h hk => stemsFrom_step toLower rules hchain m t k v h hk)
    order m (stemsFrom_refl toLower rules m)

theorem movePhase_step {V : Type} (toLower : String → String) (rules : Rules)
    (hchain : NoChain toLower rules) (m : GoMap V) (k c : String) (v : V)
    (hr : rules.lookup (toLower k) = some c)
    (honly : ∀ k0, k0 ∈ m → rules.lookup (toLower k0) = some c → k0 = k)
    (u : List String) (t : GoMap V) (x : String) (vx : V)
    (hst : StemsFrom toLower rules m t) (hph : MovePhase k c v u t)
    (hx : t.lookup x = some vx) :
    MovePhase k c v (u.filter (fun y => decide (y ≠ x))) (translateEntry toLower rules t x vx) := by
  rcases hph with ⟨hku, hk, hc⟩ | ⟨hku, hc, hk⟩
  · by_cases hxk : x = k
    · subst hxk
      rw [hk] at hx
      cases hx
      right
      rw [translateEntry_of_absent toLower rules t x v c hr hc]
      have hxc : x ≠ c := by
        intro e
        rw [e, hc] at hk
        cases hk
      refine ⟨by simp, by simp [lookup_rename], ?_⟩
      rw [lookup_rename, if_neg hxc, if_pos rfl]
    · left
      refine ⟨by simp [hku, Ne.symm hxk], ?_, ?_⟩
      · exact translateEntry_lookup_of_ne toLower rules t x vx k v (Ne.symm hxk) hk
      · rcases translateEntry_cases toLower rules t x vx with he | ⟨cx, hrx, _, he⟩
        · rw [he]; exact hc
        · rw [he, lookup_rename]
          have hcx : c ≠ cx := by
            intro e
            subst e
            rcases hst x vx hx with hm | ⟨k0, _, hr0⟩
            · exact hxk (honly x (AList.lookup_isSome.mp (by simp [hm])) hrx)
            · rw [hchain _ _ hr0] at hrx
              cases hrx
          rw [if_neg hcx]
          by_cases hcx2 : c = x
          · rw [if_pos hcx2]
          · rw [if_neg hcx2]; exact hc
  · right
    have hxk : x ≠ k := by
      intro e
      rw [e, hk] at hx
      cases hx
    refine ⟨by simp [hku], ?_, ?_⟩
    · by_cases hxc : x = c
      · subst hxc
        rw [translateEntry_of_none toLower rules t x vx (hchain _ _ hr)]
        exact hc
      · exact translateEntry_lookup_of_ne toLower rules t x vx c v (Ne.symm hxc) hc
    · rcases translateEntry_cases toLower rules t x vx with he | ⟨cx, hrx, _, he⟩
      · rw [he]; exact hk
      · rw [he, lookup_rename]
        have hkcx : k ≠ cx := by
          intro e
          subst e
          rw [hchain _ _ hrx] at hr
          cases hr
        rw [if_neg hkcx, if_neg (Ne.symm hxk)]
        exact hk

/-- A deprecated key whose canonical key is free, and is the canonical key of
no other key of the map, is moved by the loop under every permitted order,
when the rules hold no chain. -/
theorem rangeLoop_moves {V : Type} (toLower : String → String) (rules : Rules)
    (hchain : NoChain toLower rules) (order : List String) (m : GoMap V)
    (k c : String) (v : V)
    (hperm : permittedOrder toLower rules order m = true)
    (hk : m.lookup k = some v) (hr : rules.lookup (toLower k) = some c)
    (hc : m.lookup c = none)
    (honly : ∀ k0, k0 ∈ m → rules.lookup (toLower k0) = some c → k0 = k) :
    (rangeLoop toLower rules order m).lookup c = some v ∧
      (rangeLoop toLower rules order m).lookup k = none := by
  have hkm : k ∈ m.keys := AList.mem_keys.mp (AList.lookup_isSome.mp (by simp [hk]))
  obtain ⟨u, ⟨_, hph⟩, hu⟩ := permitted_invariant toLower rules
    (fun u t => StemsFrom toLower rules m t ∧ MovePhase k c v u t)
    (fun u t x vx h hx =>
      ⟨stemsFrom_step toLower rules hchain m t x vx h.1 hx,
        movePhase_step toLower rules hchain m k c v hr honly u t x vx h.1 h.2 hx⟩)
    order m.keys [] m ⟨stemsFrom_refl toLower rules m, Or.inl ⟨hkm, hk, hc⟩⟩ hperm
  rcases hph with ⟨hku, hk2, _⟩ | ⟨_, hc2, hk2⟩
  · rw [hu k hku] at hk2
    cases hk2
  · exact ⟨hc2, hk2⟩

/-- An entry whose canonical key is held by the map, where that canonical
key is not itself renamed by the rules, stays in place together with the
entry under the canonical key, under every order. -/
theorem rangeLoop_keeps_both {V : Type} (toLower : String → String) (rules : Rules)
    (order : List String) (m : GoMap V) (k c : String) (vk vc : V)
    (hk : m.lookup k = some vk) (hr : rules.lookup (toLower k) = some c)
    (hc : m.lookup c = some vc)
    (hcc : rules.lookup (toLower c) = none ∨ rules.lookup (toLower c) = some c) :
    (rangeLoop toLower rules order m).lookup c = some vc ∧
      (rangeLoop toLower rules order m).lookup k = some vk := by
  refine rangeLoop_invariant toLower rules
    (fun t => t.lookup c = some vc ∧ t.lookup k = some vk) ?_ order m ⟨hc, hk⟩
  intro t x vx ⟨htc, htk⟩ _
  constructor
  · by_cases hxc : x = c
    · subst hxc
      rcases hcc with h | h
      · rw [translateEntry_of_none toLower rules t x vx h]; exact htc
      · rw [translateEntry_of_present toLower rules t x vx x vc h htc]; exact htc
    · exact translateEntry_lookup_of_ne toLower rules t x vx c vc (Ne.symm hxc) htc
  · by_cases hxk : x = k
    · subst hxk
      rw [translateEntry_of_present toLower rules t x vx c vc hr htc]; exact htk
    · exact translateEntry_lookup_of_ne toLower rules t x vx k vk (Ne.symm hxk) htk

/-- An entry whose key does not lowercase to a deprecated key stays in the
map with its value, under every order. -/
theorem rangeLoop_keeps_unrelated {V : Type} (toLower : String → String) (rules : Rules)
    (order : List String) (m : GoMap V) (y : String) (w : V)
    (hy : m.lookup y = some w) (hr : rules.lookup (toLower y) = none) :
    (rangeLoop toLower rules order m).lookup y = some w := by
  refine rangeLoop_invariant toLower rules (fun t => t.lookup y = some w) ?_ order m hy
  intro t x vx ht _
  by_cases hxy : x = y
  · subst hxy
    rw [translateEntry_of_none toLower rules t x vx hr]; exact ht
  · exact translateEntry_lookup_of_ne toLower rules t x vx y w (Ne.symm hxy) ht

theorem noChain_of_entries (toLower : String → String) (rules : Rules)
    (h : ∀ e ∈ rules.entries, rules.lookup (toLower e.2) = none) :
    NoChain toLower rules := by
  intro d c hd
  exact h ⟨d, c⟩ (AList.mem_lookup_iff.mp hd)

theorem distinctCanonical_of_keys {V : Type} (toLower : String → String) (rules : Rules)
    (m : GoMap V)
    (h : ∀ k1 ∈ m.keys, ∀ k2 ∈ m.keys, (rules.lookup (toLower k1)).isSome = true →
      rules.lookup (toLower k1) = rules.lookup (toLower k2) → k1 = k2) :
    DistinctCanonical toLower rules m := by
  intro k1 k2 c h1 h2 hr1 hr2
  exact h k1 (AList.mem_keys.mp h1) k2 (AList.mem_keys.mp h2) (by simp [hr1]) (by rw [hr1, hr2])

theorem canonicalFree_of_keys {V : Type} (toLower : String → String) (rules : Rules)
    (m : GoMap V)
    (h : ∀ k ∈ m.keys, ∀ e ∈ rules.entries, toLower k = e.1 → m.lookup e.2 = none) :
    CanonicalFree toLower rules m := by
  intro k c hk hr
  exact h k (AList.mem_keys.mp hk) ⟨toLower k, c⟩ (AList.mem_lookup_iff.mp hr) rfl

/-- The result of the loop when the deprecated keys of the map have distinct
free canonical keys and the rules hold no chain: each entry of the map under
the canonical key of its key, or under its own key when that key is not
deprecated, and nothing else. -/
theorem rangeLoop_exact {V : Type} (toLower : String → String) (rules : Rules)
    (order : List String) (m : GoMap V)
    (hperm : permittedOrder toLower rules order m = true)
    (hdist : DistinctCanonical toLower rules m) (hfree : CanonicalFree toLower rules m)
    (hchain : NoChain toLower rules) (x : String) (w : V) :
    (rangeLoop toLower rules order m).lookup x = some w ↔
      ∃ k, m.lookup k = some w ∧
        (rules.lookup (toLower k) = some x ∨ (rules.lookup (toLower k) = none ∧ x = k)) := by
  have hmem : ∀ k (v : V), m.lookup k = some v → k ∈ m :=
    fun k v h => AList.lookup_isSome.mp (by simp [h])
  have hmove : ∀ k c (v : V), m.lookup k = some v → rules.lookup (toLower k) = some c →
      (rangeLoop toLower rules order m).lookup c = some v ∧
        (rangeLoop toLower rules order m).lookup k = none := by
    intro k c v hk hr
    exact rangeLoop_moves toLower rules hchain order m k c v hperm hk hr
      (hfree k c (hmem k v hk) hr)
      (fun k0 hk0 hr0 => hdist k0 k c hk0 (hmem k v hk) hr0 hr)
  constructor
  · intro hx
    rcases rangeLoop_stemsFrom toLower rules hchain order m x w hx with hm | ⟨k, hk, hr⟩
    · cases hrx : rules.lookup (toLower x) with
      | none => exact ⟨x, hm, Or.inr ⟨hrx, rfl⟩⟩
      | some c =>
        rw [(hmove x c w hm hrx).2] at hx
        cases hx
    · exact ⟨k, hk, Or.inl hr⟩
  · rintro ⟨k, hk, hr | ⟨hr, rfl⟩⟩
    · exact (hmove k x w hk hr).1
    · exact rangeLoop_keeps_unrelated toLower rules order m x w hk hr

/-- Producing the keys a map holds at loop entry one after the other, and
none of the entries created on the way, is a permitted order. -/
theorem permitted_of_nodup {V : Type} (toLower : String → String) (rules : Rules)
    (ks created : List String) (target : GoMap V)
    (hnd : ks.Nodup) (hks : ∀ y ∈ ks, y ∈ target) :
    permitted toLower rules ks ks created target = true := by
  induction ks generalizing created target with
  | nil => simp [permitted]
  | cons k rest ih =>
    have hk : k ∈ target := hks k (List.mem_cons_self k rest)
    obtain ⟨v, hv⟩ := Option.isSome_iff_exists.mp (AList.lookup_isSome.mpr hk)
    have hnot : k ∉ rest := (List.nodup_cons.mp hnd).1
    have hfilter : (k :: rest).filter (fun x => decide (x ≠ k)) = rest := by
      rw [List.filter_cons_of_neg (by simp)]
      exact List.filter_eq_self.mpr (fun y hy => by
        simp only [ne_eq, decide_eq_true_eq]
        intro e
        exact hnot (e ▸ hy))
    simp only [permitted, hv, Bool.and_eq_true, Bool.or_eq_true, decide_eq_true_eq]
    refine ⟨Or.inl (List.mem_cons_self k rest), ?_⟩
    rw [hfilter]
    apply ih _ _ (List.nodup_cons.mp hnd).2
    intro y hy
    have hyk : y ≠ k := fun e => hnot (e ▸ hy)
    obtain ⟨w, hw⟩ := Option.isSome_iff_exists.mp
      (AList.lookup_isSome.mpr (hks y (List.mem_cons_of_mem k hy)))
    exact AList.lookup_isSome.mp
      (by rw [translateEntry_lookup_of_ne toLower rules target k v y w hyk hw]; rfl)

/-- Every map has a permitted visiting order: the loop can run to its end. -/
theorem permittedOrder_keys {V : Type} (toLower : String → String) (rules : Rules)
    (m : GoMap V) : permittedOrder toLower rules m.keys m = true :=
  permitted_of_nodup toLower rules m.keys [] m m.keys_nodup (fun _ hy => AList.mem_keys.mpr hy)

/-- Renaming the key of an entry to a key the map does not hold keeps the
number of entries and the values. -/
theorem rename_entries {V : Type} (target : GoMap V) (k c : String) (v : V)
    (hk : target.lookup k = some v) (hc : target.lookup c = none) :
    ((target.erase k).insert c v).entries.length = target.entries.length ∧
      (values ((target.erase k).insert c v)).Perm (values target) := by
  have hcm : c ∉ target.erase k := by
    intro h
    exact (AList.lookup_eq_none.mp hc) (AList.mem_erase.mp h).2
  have hkm : k ∈ target.entries.keys :=
    AList.mem_keys.mp (AList.lookup_isSome.mp (by rw [hk]; rfl))
  obtain ⟨b, l1, l2, _, hl, hke⟩ := List.exists_of_kerase hkm
  have hmem : (⟨k, v⟩ : Sigma (fun _ : String => V)) ∈ target.entries :=
    AList.mem_lookup_iff.mp hk
  have hmem2 : (⟨k, b⟩ : Sigma (fun _ : String => V)) ∈ target.entries := by
    rw [hl]; simp
  have hb : v = b := target.nodupKeys.eq_of_mk_mem hmem hmem2
  have hent : ((target.erase k).insert c v).entries = ⟨c, v⟩ :: (l1 ++ l2) := by
    rw [AList.insert_entries_of_neg hcm]
    show (⟨c, v⟩ : Sigma (fun _ : String => V)) :: List.kerase k target.entries = _
    rw [hke]
  constructor
  · rw [hent, hl]
    simp
    omega
  · unfold values
    rw [hent, hl, hb]
    simp only [List.map_cons, List.map_append]
    exact List.perm_middle.symm

/-- An iteration keeps the number of entries and the values of the map. -/
theorem translateEntry_entries {V : Type} (toLower : String → String) (rules : Rules)
    (target : GoMap V) (k : String) (v : V) (hk : target.lookup k = some v) :
    (translateEntry toLower rules target k v).entries.length = target.entries.length ∧
      (values (translateEntry toLower rules target k v)).Perm (values target) := by
  rcases translateEntry_cases toLower rules target k v with h | ⟨c, _, hc, h⟩
  · rw [h]; exact ⟨rfl, List.Perm.refl _⟩
  · rw [h]; exact rename_entries target k c v hk hc

/-- The loop keeps the number of entries and the values of the map, under
every order. -/
theorem rangeLoop_entries {V : Type} (toLower : String → String) (rules : Rules)
    (order : List String) (m : GoMap V) :
    (rangeLoop toLower rules order m).entries.length = m.entries.length ∧
      (values (rangeLoop toLower rules order m)).Perm (values m) := by
  refine rangeLoop_invariant toLower rules
    (fun t => t.entries.length = m.entries.length ∧ (values t).Perm (values m)) ?_
    order m ⟨rfl, List.Perm.refl _⟩
  intro t k v ⟨hlen, hperm⟩ hk
  have h := translateEntry_entries toLower rules t k v hk
  exact ⟨h.1.trans hlen, h.2.trans hperm⟩

/-- The source type plays no part in `HookTranslateKeys`. -/
theorem translate_src_irrelevant {V : Type} (toLower : String → String)
    (order : List String) (src1 src2 dst : GoType) (data : Data V) :
    HookTranslateKeys toLower order src1 dst data =
      HookTranslateKeys toLower order src2 dst data := rfl

/-- A value that is not a map is returned as it is. -/
theorem translate_of_not_mapping {V : Type} (toLower : String → String)
    (order : List String) (src dst : GoType) (data : Data V)
    (h : ∀ m, data ≠ Data.mapping m) :
    HookTranslateKeys toLower order src dst data = some (data, none) := by
  unfold HookTranslateKeys
  split
  · rfl
  · cases data with
    | mapping m => exact absurd rfl (h m)
    | _ => rfl

/-- On a map the hook panics or returns a map and a nil error. -/
theorem translate_mapping_cases {V : Type} (toLower : String → String)
    (order : List String) (src dst : GoType) (m : GoMap V) :
    HookTranslateKeys toLower order src dst (Data.mapping m) = none ∨
      ∃ result, HookTranslateKeys toLower order src dst (Data.mapping m) =
        some (Data.mapping result, none) := by
  unfold HookTranslateKeys
  split
  · exact Or.inr ⟨m, rfl⟩
  · cases translatorOf dst with
    | absent => exact Or.inr ⟨m, rfl⟩
    | panics => exact Or.inl rfl
    | rules r => exact Or.inr ⟨_, rfl⟩

/-- Whenever the hook returns, the error it returns is nil. -/
theorem translate_error_nil {V : Type} (toLower : String → String)
    (order : List String) (src dst : GoType) (data : Data V)
    (r : Data V × Option (HookError V))
    (h : HookTranslateKeys toLower order src dst data = some r) : r.2 = none := by
  cases data with
  | mapping m =>
    rcases translate_mapping_cases toLower order src dst m with h1 | ⟨res, h1⟩
    · rw [h1] at h; cases h
    · rw [h1] at h; cases h; rfl
  | null =>
    rw [translate_of_not_mapping toLower order src dst _ (by intro m; simp)] at h
    cases h; rfl
  | mapSlice ms =>
    rw [translate_of_not_mapping toLower order src dst _ (by intro m; simp)] at h
    cases h; rfl
  | other v =>
    rw [translate_of_not_mapping toLower order src dst _ (by intro m; simp)] at h
    cases h; rfl

/-- The hook returns, with a nil error, for every destination type whose
translator is built without a panic. -/
theorem translate_returns {V : Type} (toLower : String → String)
    (order : List String) (src dst : GoType) (data : Data V)
    (h : translatorOf dst ≠ Translator.panics) :
    ∃ value, HookTranslateKeys toLower order src dst data = some (value, none) := by
  cases data with
  | mapping m =>
    unfold HookTranslateKeys
    split
    · exact ⟨_, rfl⟩
    · cases ht : translatorOf dst with
      | absent => exact ⟨_, rfl⟩
      | panics => exact absurd ht h
      | rules r => exact ⟨_, rfl⟩
  | null => exact ⟨_, translate_of_not_mapping toLower order src dst _ (by intro m; simp)⟩
  | mapSlice ms =>
    exact ⟨_, translate_of_not_mapping toLower order src dst _ (by intro m; simp)⟩
  | other v => exact ⟨_, translate_of_not_mapping toLower order src dst _ (by intro m; simp)⟩

theorem settledOutside_step {V : Type} (toLower : String → String) (rules : Rules)
    (hchain : NoChain toLower rules) (u : List String) (t : GoMap V) (x : String) (vx : V)
    (h : SettledOutside toLower rules u t) (hx : t.lookup x = some vx) :
    SettledOutside toLower rules (u.filter (fun y => decide (y ≠ x)))
      (translateEntry toLower rules t x vx) := by
  have hmemf : ∀ k, k ∉ u.filter (fun y => decide (y ≠ x)) → k ≠ x → k ∉ u := by
    intro k hk hne hku
    exact hk (List.mem_filter.mpr ⟨hku, by simpa using hne⟩)
  rcases translateEntry_cases toLower rules t x vx with he | ⟨c, hr, hc, he⟩
  · rw [he]
    intro k v hk hku
    by_cases hkx : k = x
    · subst hkx
      cases hrk : rules.lookup (toLower k) with
      | none => exact Or.inl rfl
      | some ck =>
        right
        cases hck : t.lookup ck with
        | none =>
          have := translateEntry_of_absent toLower rules t k vx ck hrk hck
          rw [he] at this
          have hl := congrArg (fun s : GoMap V => s.lookup ck) this
          simp only [AList.lookup_insert] at hl
          rw [hck] at hl
          cases hl
        | some w => exact ⟨ck, w, rfl, hck⟩
    · exact h k v hk (hmemf k hku hkx)
  · rw [he]
    intro k v hk hku
    rw [lookup_rename] at hk
    by_cases hkc : k = c
    · left
      rw [hkc]
      exact hchain _ _ hr
    · rw [if_neg hkc] at hk
      by_cases hkx : k = x
      · rw [if_pos hkx] at hk
        cases hk
      · rw [if_neg hkx] at hk
        rcases h k v hk (hmemf k hku hkx) with hn | ⟨ck, w, hrk, hck⟩
        · exact Or.inl hn
        · right
          refine ⟨ck, w, hrk, ?_⟩
          have hne : ck ≠ x := by
            intro e
            rw [← e, hchain _ _ hrk] at hr
            cases hr
          have hl := translateEntry_lookup_of_ne toLower rules t x vx ck w hne hck
          rw [he] at hl
          exact hl

/-- After the loop ran under a permitted order with rules that hold no chain,
no key of the map can be renamed. -/
theorem rangeLoop_settled {V : Type} (toLower : String → String) (rules : Rules)
    (hchain : NoChain toLower rules) (order : List String) (m : GoMap V)
    (hperm : permittedOrder toLower rules order m = true) :
    Settled toLower rules (rangeLoop toLower rules order m) := by
  obtain ⟨u, hs, hu⟩ := permitted_invariant toLower rules
    (fun u t => SettledOutside toLower rules u t)
    (fun u t x vx h hx => settledOutside_step toLower rules hchain u t x vx h hx)
    order m.keys [] m
    (fun k v hk hku =>
      absurd (AList.mem_keys.mp (AList.lookup_isSome.mp (by rw [hk]; rfl))) hku)
    hperm
  intro k v hk
  apply hs k v hk
  intro hku
  rw [hu k hku] at hk
  cases hk

/-- The loop changes nothing in a map none of whose keys can be renamed. -/
theorem rangeLoop_of_settled {V : Type} (toLower : String → String) (rules : Rules)
    (order : List String) (t : GoMap V) (h : Settled toLower rules t) :
    rangeLoop toLower rules order t = t := by
  induction order with
  | nil => rfl
  | cons k rest ih =>
    cases hk : t.lookup k with
    | none => rw [rangeLoop_cons_of_absent _ _ _ _ _ hk]; exact ih
    | some v =>
      rw [rangeLoop_cons_of_lookup _ _ _ _ _ _ hk]
      rcases h k v hk with hn | ⟨c, w, hr, hc⟩
      · rw [translateEntry_of_none toLower rules t k v hn]; exact ih
      · rw [translateEntry_of_present toLower rules t k v c w hr hc]; exact ih

theorem noSharedFreeCanonical_of_keys {V : Type} (toLower : String → String)
    (rules : Rules) (m : GoMap V)
    (h : ∀ k1 ∈ m.keys, ∀ k2 ∈ m.keys, ∀ e ∈ rules.entries, toLower k1 = e.1 →
      rules.lookup (toLower k2) = some e.2 → m.lookup e.2 = none → k1 = k2) :
    NoSharedFreeCanonical toLower rules m := by
  intro k1 k2 c h1 h2 hr1 hr2 hc
  exact h k1 (AList.mem_keys.mp h1) k2 (AList.mem_keys.mp h2) ⟨toLower k1, c⟩
    (AList.mem_lookup_iff.mp hr1) rfl hr2 hc

/-- The result of the loop under a permitted order, when the rules hold no
chain and no two keys of the map compete for a canonical key the map does
not hold: an entry is moved to its canonical key when the map does not hold
that key, and stays in place otherwise.  The order plays no part in it. -/
theorem rangeLoop_determined {V : Type} (toLower : String → String) (rules : Rules)
    (order : List String) (m : GoMap V)
    (hperm : permittedOrder toLower rules order m = true)
    (hshared : NoSharedFreeCanonical toLower rules m)
    (hchain : NoChain toLower rules) (x : String) (w : V) :
    (rangeLoop toLower rules order m).lookup x = some w ↔
      ∃ k, m.lookup k = some w ∧
        ((rules.lookup (toLower k) = some x ∧ m.lookup x = none) ∨
          (x = k ∧ (rules.lookup (toLower k) = none ∨
            ∃ c vc, rules.lookup (toLower k) = some c ∧ m.lookup c = some vc))) := by
  have hmem : ∀ k (v : V), m.lookup k = some v → k ∈ m :=
    fun k v h => AList.lookup_isSome.mp (by simp [h])
  have hmove : ∀ k c (v : V), m.lookup k = some v → rules.lookup (toLower k) = some c →
      m.lookup c = none →
      (rangeLoop toLower rules order m).lookup c = some v ∧
        (rangeLoop toLower rules order m).lookup k = none := by
    intro k c v hk hr hc
    exact rangeLoop_moves toLower rules hchain order m k c v hperm hk hr hc
      (fun k0 hk0 hr0 => hshared k0 k c hk0 (hmem k v hk) hr0 hr hc)
  have hstay : ∀ k c (v vc : V), m.lookup k = some v → rules.lookup (toLower k) = some c →
      m.lookup c = some vc →
      (rangeLoop toLower rules order m).lookup c = some vc ∧
        (rangeLoop toLower rules order m).lookup k = some v := by
    intro k c v vc hk hr hc
    exact rangeLoop_keeps_both toLower rules order m k c v vc hk hr hc
      (Or.inl (hchain _ _ hr))
  constructor
  · intro hx
    rcases rangeLoop_stemsFrom toLower rules hchain order m x w hx with hm | ⟨k, hk, hr⟩
    · cases hrx : rules.lookup (toLower x) with
      | none => exact ⟨x, hm, Or.inr ⟨rfl, Or.inl hrx⟩⟩
      | some c =>
        cases hc : m.lookup c with
        | none =>
          rw [(hmove x c w hm hrx hc).2] at hx
          cases hx
        | some vc => exact ⟨x, hm, Or.inr ⟨rfl, Or.inr ⟨c, vc, hrx, hc⟩⟩⟩
    · rcases Option.eq_none_or_eq_some (m.lookup x) with hmx | ⟨vx, hmx⟩
      · exact ⟨k, hk, Or.inl ⟨hr, hmx⟩⟩
      · have h1 := (hstay k x w vx hk hr hmx).1
        rw [hx] at h1
        cases h1
        exact ⟨x, hmx, Or.inr ⟨rfl, Or.inl (hchain _ _ hr)⟩⟩
  · rintro ⟨k, hk, ⟨hr, hc⟩ | ⟨rfl, hn | ⟨c, vc, hr, hc⟩⟩⟩
    · exact (hmove k x w hk hr hc).1
    · exact rangeLoop_keeps_unrelated toLower rules order m x w hk hn
    · exact (hstay x c w vc hk hr hc).2

/-- Two permitted orders give maps with the same entries, when the rules hold
no chain and no two keys of the map compete for a canonical key the map does
not hold. -/
theorem rangeLoop_order_irrelevant {V : Type} (toLower : String → String) (rules : Rules)
    (order1 order2 : List String) (m : GoMap V)
    (hperm1 : permittedOrder toLower rules order1 m = true)
    (hperm2 : permittedOrder toLower rules order2 m = true)
    (hshared : NoSharedFreeCanonical toLower rules m)
    (hchain : NoChain toLower rules) (x : String) :
    (rangeLoop toLower rules order1 m).lookup x =
      (rangeLoop toLower rules order2 m).lookup x := by
  apply Option.ext
  intro w
  show (rangeLoop toLower rules order1 m).lookup x = some w ↔
    (rangeLoop toLower rules order2 m).lookup x = some w
  rw [rangeLoop_determined toLower rules order1 m hperm1 hshared hchain x w,
    rangeLoop_determined toLower rules order2 m hperm2 hshared hchain x w]

/-- The loop under an order that produces each key at most once, and only
keys the map held at loop entry: every entry of the result stems from an
entry of that map, whatever the rules. -/
theorem rangeLoop_stemsFrom_initial {V : Type} (toLower : String → String) (rules : Rules)
    (m : GoMap V) (rest : List String) (t : GoMap V)
    (hnd : rest.Nodup) (hsub : ∀ y ∈ rest, y ∈ m)
    (h1 : ∀ x w, t.lookup x = some w → m.lookup x = some w ∨
      (x ∉ rest ∧ ∃ k, m.lookup k = some w ∧ rules.lookup (toLower k) = some x))
    (h2 : ∀ y ∈ rest, t.lookup y = m.lookup y) :
    StemsFrom toLower rules m (rangeLoop toLower rules rest t) := by
  induction rest generalizing t with
  | nil =>
    intro x w hx
    rcases h1 x w hx with h | ⟨_, h⟩
    · exact Or.inl h
    · exact Or.inr h
  | cons x0 rest ih =>
    have hx0 : x0 ∉ rest := (List.nodup_cons.mp hnd).1
    have hnd2 : rest.Nodup := (List.nodup_cons.mp hnd).2
    have hsub2 : ∀ y ∈ rest, y ∈ m := fun y hy => hsub y (List.mem_cons_of_mem x0 hy)
    obtain ⟨v0, hm0⟩ := Option.isSome_iff_exists.mp
      (AList.lookup_isSome.mpr (hsub x0 (List.mem_cons_self x0 rest)))
    have ht0 : t.lookup x0 = some v0 := by
      rw [h2 x0 (List.mem_cons_self x0 rest)]; exact hm0
    rw [rangeLoop_cons_of_lookup _ _ _ _ _ _ ht0]
    rcases translateEntry_cases toLower rules t x0 v0 with he | ⟨c, hr, hc, he⟩
    · rw [he]
      apply ih t hnd2 hsub2
      · intro x w hx
        rcases h1 x w hx with h | ⟨hn, h⟩
        · exact Or.inl h
        · exact Or.inr ⟨fun hmem => hn (List.mem_cons_of_mem x0 hmem), h⟩
      · exact fun y hy => h2 y (List.mem_cons_of_mem x0 hy)
    · have hcrest : c ∉ rest := by
        intro hmem
        have := h2 c (List.mem_cons_of_mem x0 hmem)
        rw [hc] at this
        obtain ⟨vc, hvc⟩ := Option.isSome_iff_exists.mp
          (AList.lookup_isSome.mpr (hsub2 c hmem))
        rw [hvc] at this
        cases this
      rw [he]
      apply ih _ hnd2 hsub2
      · intro x w hx
        rw [lookup_rename] at hx
        by_cases hxc : x = c
        · rw [if_pos hxc] at hx
          cases hx
          exact Or.inr ⟨hxc ▸ hcrest, x0, hm0, hxc ▸ hr⟩
        · rw [if_neg hxc] at hx
          by_cases hxx : x = x0
          · rw [if_pos hxx] at hx
            cases hx
          · rw [if_neg hxx] at hx
            rcases h1 x w hx with h | ⟨hn, h⟩
            · exact Or.inl h
            · exact Or.inr ⟨fun hmem => hn (List.mem_cons_of_mem x0 hmem), h⟩
      · intro y hy
        have hyc : y ≠ c := fun e => hcrest (e ▸ hy)
        have hyx : y ≠ x0 := fun e => hx0 (e ▸ hy)
        rw [lookup_rename, if_neg hyc, if_neg hyx]
        exact h2 y (List.mem_cons_of_mem x0 hy)

/-- A value that is not a sequence of maps is returned as it is, with a nil
error, whatever the two types. -/
theorem normalize_of_not_mapSlice {V : Type} (src dst : GoType) (data : Data V)
    (h : ∀ ms, data ≠ Data.mapSlice ms) :
    HookNormalizeHCLNestedBlocks src dst data = (data, none) := by
  by_cases hg : sequenceToSequence src dst
  · exact normalize_guard src dst data hg
  · rw [normalize_no_guard src dst data hg]
    cases data with
    | mapSlice ms => exact absurd rfl (h ms)
    | _ => rfl

/-- The guard of line 95 reads the source type.  In a direct call whose source
type is not the type of the value (here `interface{}` for a sequence of
maps), a one-element sequence is unpacked also for a slice destination. -/
theorem normalize_foreign_source_type :
    HookNormalizeHCLNestedBlocks emptyInterface sliceOfMaps
        (Data.mapSlice [mapOf [("a", (1 : Nat))]]) =
      (Data.mapping (mapOf [("a", 1)]), none) := rfl

/-! ## The properties of the specification -/

/-- C1, counterexample: two spellings of one deprecated key.  With the rules
of `TypeStruct` and the map `{"OldOne": "value1", "oldone": "value2"}`, the
key `OldOne` lowercases to the deprecated key `oldone` with canonical key
`One`, which the map does not hold; when the loop visits `oldone` first, the
result holds `value2` under `One` and still holds `OldOne`. -/
theorem translate_moves_value_counterexample :
    TypeStruct.kind ≠ Kind.Ptr ∧
    translatorOf TypeStruct = Translator.rules typeStructRules ∧
    permittedOrder asciiLower typeStructRules ["oldone", "OldOne"] twoSpellings = true ∧
    twoSpellings.lookup "OldOne" = some "value1" ∧
    typeStructRules.lookup (asciiLower "OldOne") = some "One" ∧
    twoSpellings.lookup "One" = none ∧
    HookTranslateKeys asciiLower ["oldone", "OldOne"] mapOfInterfaces TypeStruct
        (Data.mapping twoSpellings) =
      some (Data.mapping (mapOf [("One", "value2"), ("OldOne", "value1")]), none) ∧
    (mapOf [("One", "value2"), ("OldOne", "value1")]).lookup "One" ≠ some "value1" ∧
    (mapOf [("One", "value2"), ("OldOne", "value1")]).lookup "OldOne" = some "value1" := by
  refine ⟨by decide, rfl, by decide, by decide, by decide, by decide, rfl, by decide, by decide⟩

/-- C1, amended: for a destination type that is not a pointer and whose key
mapping is `R`, every map `m` and every key `k` of `m` such that
`toLower k` is a deprecated key of `R` with canonical key `c`, `c` is not a
key of `m`, no other key of `m` has the canonical key `c`, and no canonical
key of `R` lowercases to a deprecated key of `R`: under every permitted
visiting order the translated map contains `c`, its value under `c` is
`m[k]`, and `k` is no longer a key of it (`k = c` cannot occur here). -/
theorem translate_moves_value {V : Type} (toLower : String → String)
    (order : List String) (src dst : GoType) (R : Rules) (m : GoMap V)
    (k c : String) (v : V)
    (hkind : dst.kind ≠ Kind.Ptr) (htr : translatorOf dst = Translator.rules R)
    (hperm : permittedOrder toLower R order m = true)
    (hk : m.lookup k = some v) (hr : R.lookup (toLower k) = some c) (hc : c ∉ m)
    (honly : ∀ k0, k0 ∈ m → R.lookup (toLower k0) = some c → k0 = k)
    (hchain : NoChain toLower R) :
    ∃ result, HookTranslateKeys toLower order src dst (Data.mapping m) =
        some (Data.mapping result, none) ∧
      c ∈ result ∧ result.lookup c = some v ∧ k ∉ result := by
  refine ⟨rangeLoop toLower R order m,
    translate_eq_rangeLoop toLower order src dst R m hkind htr, ?_⟩
  have h := rangeLoop_moves toLower R hchain order m k c v hperm hk hr
    (AList.lookup_eq_none.mpr hc) honly
  exact ⟨AList.lookup_isSome.mp (by rw [h.1]; rfl), h.1, AList.lookup_eq_none.mp h.2⟩

theorem translate_moves_value_witness :
    (TypePtrToStruct.kind ≠ Kind.Ptr ∧
      translatorOf TypePtrToStruct = Translator.rules typePtrToStructRules ∧
      permittedOrder asciiLower typePtrToStructRules ["OldFour", "None", "Old_Three"]
        pointerReceiverData = true ∧
      pointerReceiverData.lookup "Old_Three" = some "value3" ∧
      typePtrToStructRules.lookup (asciiLower "Old_Three") = some "Three" ∧
      "Three" ∉ pointerReceiverData ∧
      (∀ k0, k0 ∈ pointerReceiverData →
        typePtrToStructRules.lookup (asciiLower k0) = some "Three" → k0 = "Old_Three") ∧
      NoChain asciiLower typePtrToStructRules) ∧
    ∃ result, HookTranslateKeys asciiLower ["OldFour", "None", "Old_Three"] mapOfInterfaces
        TypePtrToStruct (Data.mapping pointerReceiverData) =
        some (Data.mapping result, none) ∧
      "Three" ∈ result ∧ result.lookup "Three" = some "value3" ∧ "Old_Three" ∉ result :=
  have honly : ∀ k0, k0 ∈ pointerReceiverData →
      typePtrToStructRules.lookup (asciiLower k0) = some "Three" → k0 = "Old_Three" :=
    fun k0 hk0 => (by decide : ∀ k0 ∈ pointerReceiverData.keys,
      typePtrToStructRules.lookup (asciiLower k0) = some "Three" → k0 = "Old_Three")
      k0 (AList.mem_keys.mp hk0)
  have hchain : NoChain asciiLower typePtrToStructRules :=
    noChain_of_entries asciiLower typePtrToStructRules (by decide)
  ⟨⟨by decide, rfl, by decide, by decide, by decide, by decide, honly, hchain⟩,
    translate_moves_value asciiLower _ mapOfInterfaces TypePtrToStruct typePtrToStructRules
      pointerReceiverData "Old_Three" "Three" "value3" (by decide) rfl (by decide)
      (by decide) (by decide) (by decide) honly hchain⟩

/-- C2, counterexample: a canonical key that is itself deprecated.  With the
rules `{"a": "b", "b": "c"}` and the map `{"a": "1", "b": "2"}`, the key `a`
has the canonical key `b`, which the map holds; when the loop visits `b`
first, `b` is renamed to `c` and then `a` to `b`: the value under `b` is no
longer `m["b"]` and `a` is gone. -/
theorem translate_keeps_canonical_counterexample :
    (structWithMapping chainRules).kind ≠ Kind.Ptr ∧
    translatorOf (structWithMapping chainRules) = Translator.rules chainRules ∧
    permittedOrder asciiLower chainRules ["b", "a"] chainData = true ∧
    chainData.lookup "a" = some "1" ∧
    chainRules.lookup (asciiLower "a") = some "b" ∧
    chainData.lookup "b" = some "2" ∧
    HookTranslateKeys asciiLower ["b", "a"] mapOfInterfaces (structWithMapping chainRules)
        (Data.mapping chainData) =
      some (Data.mapping (mapOf [("b", "1"), ("c", "2")]), none) ∧
    (mapOf [("b", "1"), ("c", "2")]).lookup "b" ≠ some "2" ∧
    (mapOf [("b", "1"), ("c", "2")]).lookup "a" = none := by
  refine ⟨by decide, rfl, by decide, by decide, by decide, by decide, rfl, by decide, by decide⟩

/-- C2, amended: for a destination type that is not a pointer and whose key
mapping is `R`, if a key `k` of `m` lowercases to a deprecated key of `R`
whose canonical key `c` is already a key of `m`, and `c` does not itself
lowercase to a deprecated key of `R` with another canonical key, then after
translation, under every visiting order, the value under `c` is still `m[c]`
and `k` is still present with the value `m[k]`. -/
theorem translate_keeps_canonical {V : Type} (toLower : String → String)
    (order : List String) (src dst : GoType) (R : Rules) (m : GoMap V)
    (k c : String) (vk vc : V)
    (hkind : dst.kind ≠ Kind.Ptr) (htr : translatorOf dst = Translator.rules R)
    (hk : m.lookup k = some vk) (hr : R.lookup (toLower k) = some c)
    (hc : m.lookup c = some vc)
    (hcc : R.lookup (toLower c) = none ∨ R.lookup (toLower c) = some c) :
    ∃ result, HookTranslateKeys toLower order src dst (Data.mapping m) =
        some (Data.mapping result, none) ∧
      result.lookup c = some vc ∧ result.lookup k = some vk :=
  ⟨rangeLoop toLower R order m,
    translate_eq_rangeLoop toLower order src dst R m hkind htr,
    rangeLoop_keeps_both toLower R order m k c vk vc hk hr hc hcc⟩

theorem translate_keeps_canonical_witness :
    (TypeStruct.kind ≠ Kind.Ptr ∧
      translatorOf TypeStruct = Translator.rules typeStructRules ∧
      canonicalPresentData.lookup "OldOne" = some "value1" ∧
      typeStructRules.lookup (asciiLower "OldOne") = some "One" ∧
      canonicalPresentData.lookup "One" = some "original1" ∧
      (typeStructRules.lookup (asciiLower "One") = none ∨
        typeStructRules.lookup (asciiLower "One") = some "One")) ∧
    ∃ result, HookTranslateKeys asciiLower ["two", "oldTWO", "One", "OldOne"] mapOfInterfaces
        TypeStruct (Data.mapping canonicalPresentData) =
        some (Data.mapping result, none) ∧
      result.lookup "One" = some "original1" ∧ result.lookup "OldOne" = some "value1" :=
  ⟨⟨by decide, rfl, by decide, by decide, by decide, by decide⟩,
    translate_keeps_canonical asciiLower _ mapOfInterfaces TypeStruct typeStructRules
      canonicalPresentData "OldOne" "One" "value1" "original1" (by decide) rfl
      (by decide) (by decide) (by decide) (by decide)⟩

/-- C3: for a destination type that is not a pointer and whose key mapping is
`R`, and a map `m` whose keys that lowercase to a deprecated key of `R` have
pairwise distinct canonical keys, none of them a key of `m`, where no
canonical key of `R` lowercases to a deprecated key of `R`: under every
permitted visiting order the hook returns a nil error and a map whose
entries are exactly the entries of `m`, each under the canonical key of its
key when the lowercased key is deprecated and under its own key otherwise. -/
theorem translate_end_to_end {V : Type} (toLower : String → String)
    (order : List String) (src dst : GoType) (R : Rules) (m : GoMap V)
    (hkind : dst.kind ≠ Kind.Ptr) (htr : translatorOf dst = Translator.rules R)
    (hperm : permittedOrder toLower R order m = true)
    (hdist : DistinctCanonical toLower R m) (hfree : CanonicalFree toLower R m)
    (hchain : NoChain toLower R) :
    ∃ result, HookTranslateKeys toLower order src dst (Data.mapping m) =
        some (Data.mapping result, none) ∧
      ∀ x w, result.lookup x = some w ↔
        ∃ k, m.lookup k = some w ∧
          (R.lookup (toLower k) = some x ∨ (R.lookup (toLower k) = none ∧ x = k)) :=
  ⟨rangeLoop toLower R order m,
    translate_eq_rangeLoop toLower order src dst R m hkind htr,
    fun x w => rangeLoop_exact toLower R order m hperm hdist hfree hchain x w⟩

theorem translate_end_to_end_witness :
    (TypeStruct.kind ≠ Kind.Ptr ∧
      translatorOf TypeStruct = Translator.rules typeStructRules ∧
      permittedOrder asciiLower typeStructRules ["oldtwo", "None", "OldOne"]
        structReceiverData = true ∧
      DistinctCanonical asciiLower typeStructRules structReceiverData ∧
      CanonicalFree asciiLower typeStructRules structReceiverData ∧
      NoChain asciiLower typeStructRules) ∧
    ∃ result, HookTranslateKeys asciiLower ["oldtwo", "None", "OldOne"] mapOfInterfaces
        TypeStruct (Data.mapping structReceiverData) =
        some (Data.mapping result, none) ∧
      ∀ x w, result.lookup x = some w ↔
        ∃ k, structReceiverData.lookup k = some w ∧
          (typeStructRules.lookup (asciiLower k) = some x ∨
            (typeStructRules.lookup (asciiLower k) = none ∧ x = k)) :=
  have hdist : DistinctCanonical asciiLower typeStructRules structReceiverData :=
    distinctCanonical_of_keys asciiLower typeStructRules structReceiverData (by decide)
  have hfree : CanonicalFree asciiLower typeStructRules structReceiverData :=
    canonicalFree_of_keys asciiLower typeStructRules structReceiverData (by decide)
  have hchain : NoChain asciiLower typeStructRules :=
    noChain_of_entries asciiLower typeStructRules (by decide)
  ⟨⟨by decide, rfl, by decide, hdist, hfree, hchain⟩,
    translate_end_to_end asciiLower _ mapOfInterfaces TypeStruct typeStructRules
      structReceiverData (by decide) rfl (by decide) hdist hfree hchain⟩

/-- C4: when the guard of line 95 does not apply, a sequence of maps with
exactly one element `e` is answered by the bare map `e` and a nil error. -/
theorem normalize_single_element {V : Type} (src dst : GoType) (e : GoMap V)
    (h : ¬ sequenceToSequence src dst) :
    HookNormalizeHCLNestedBlocks src dst (Data.mapSlice [e]) = (Data.mapping e, none) := by
  rw [normalize_no_guard src dst _ h]

theorem normalize_single_element_witness :
    ¬ sequenceToSequence sliceOfMaps plainStruct ∧
      HookNormalizeHCLNestedBlocks sliceOfMaps plainStruct
          (Data.mapSlice [mapOf [("a", (1 : Nat))]]) =
        (Data.mapping (mapOf [("a", 1)]), none) :=
  ⟨by decide, normalize_single_element sliceOfMaps plainStruct _ (by decide)⟩

/-- C5: when the guard of line 95 does not apply, a sequence of maps with two
or more elements is answered by a non-nil error together with the original
sequence. -/
theorem normalize_multiple_elements {V : Type} (src dst : GoType) (ms : List (GoMap V))
    (h : ¬ sequenceToSequence src dst) (hlen : 2 ≤ ms.length) :
    (HookNormalizeHCLNestedBlocks src dst (Data.mapSlice ms)).2 ≠ none ∧
      (HookNormalizeHCLNestedBlocks src dst (Data.mapSlice ms)).1 = Data.mapSlice ms := by
  rw [normalize_no_guard src dst _ h]
  match ms, hlen with
  | _ :: _ :: _, _ => exact ⟨by simp, rfl⟩

theorem normalize_multiple_elements_witness :
    (¬ sequenceToSequence sliceOfMaps plainStruct ∧
      2 ≤ [mapOf [("a", (1 : Nat))], mapOf [("b", 2)]].length) ∧
    (HookNormalizeHCLNestedBlocks sliceOfMaps plainStruct
        (Data.mapSlice [mapOf [("a", (1 : Nat))], mapOf [("b", 2)]])).2 ≠ none ∧
      (HookNormalizeHCLNestedBlocks sliceOfMaps plainStruct
        (Data.mapSlice [mapOf [("a", (1 : Nat))], mapOf [("b", 2)]])).1 =
        Data.mapSlice [mapOf [("a", 1)], mapOf [("b", 2)]] :=
  ⟨⟨by decide, by decide⟩,
    normalize_multiple_elements sliceOfMaps plainStruct _ (by decide) (by decide)⟩

/-- C6: the normalizer returns a non-nil error exactly when the value is a
sequence of maps with more than one element and the guard of line 95 (slice
source, slice or array destination) does not apply; in every other case the
error is nil. -/
theorem normalize_error_iff {V : Type} (src dst : GoType) (data : Data V) :
    ((HookNormalizeHCLNestedBlocks src dst data).2 ≠ none ↔
      (∃ ms, data = Data.mapSlice ms ∧ 1 < ms.length) ∧ ¬ sequenceToSequence src dst) ∧
    ((HookNormalizeHCLNestedBlocks src dst data).2 = none ↔
      ¬ ((∃ ms, data = Data.mapSlice ms ∧ 1 < ms.length) ∧ ¬ sequenceToSequence src dst)) := by
  have key : (HookNormalizeHCLNestedBlocks src dst data).2 ≠ none ↔
      (∃ ms, data = Data.mapSlice ms ∧ 1 < ms.length) ∧ ¬ sequenceToSequence src dst := by
    by_cases h : sequenceToSequence src dst
    · rw [normalize_guard src dst data h]
      simp [h]
    · rw [normalize_no_guard src dst data h]
      cases data with
      | mapSlice ms =>
        match ms with
        | [] => simp [h]
        | [_] => simp [h]
        | _ :: _ :: _ => simp [h]
      | _ => simp
  refine ⟨key, ?_⟩
  rw [← key]
  exact not_not.symm

/-- C7: when the destination type is a slice or an array, every source value,
passed with its own type as source type, is returned unchanged with a nil
error, also a sequence of maps of any length (zero, one or many elements):
a sequence of maps is a value of a slice type, so the guard of line 95
applies to it, and every other value is returned as it is on every path. -/
theorem normalize_sequence_destination {V : Type} (src dst : GoType) (data : Data V)
    (hdst : dst.kind = Kind.Slice ∨ dst.kind = Kind.Array) (hown : FitsValue src data) :
    HookNormalizeHCLNestedBlocks src dst data = (data, none) ∧
      HookNormalizeHCLNestedBlocks (dynamicType data) dst data = (data, none) := by
  cases data with
  | mapSlice ms =>
    have hsrc : src.kind = Kind.Slice := hown
    exact ⟨normalize_guard src dst _ ⟨hsrc, hdst⟩,
      normalize_guard (dynamicType (Data.mapSlice ms)) dst _ ⟨rfl, hdst⟩⟩
  | null => exact ⟨normalize_of_not_mapSlice src dst _ (by intro ms; simp),
      normalize_of_not_mapSlice _ dst _ (by intro ms; simp)⟩
  | mapping m => exact ⟨normalize_of_not_mapSlice src dst _ (by intro ms; simp),
      normalize_of_not_mapSlice _ dst _ (by intro ms; simp)⟩
  | other v => exact ⟨normalize_of_not_mapSlice src dst _ (by intro ms; simp),
      normalize_of_not_mapSlice _ dst _ (by intro ms; simp)⟩

theorem normalize_sequence_destination_witness :
    ((sliceOfMaps.kind = Kind.Slice ∨ sliceOfMaps.kind = Kind.Array) ∧
      FitsValue sliceOfMaps (Data.mapSlice [mapOf [("a", (1 : Nat))]])) ∧
    (HookNormalizeHCLNestedBlocks sliceOfMaps sliceOfMaps
        (Data.mapSlice [mapOf [("a", (1 : Nat))]]) =
      (Data.mapSlice [mapOf [("a", 1)]], none) ∧
    HookNormalizeHCLNestedBlocks (dynamicType (Data.mapSlice [mapOf [("a", (1 : Nat))]]))
        sliceOfMaps (Data.mapSlice [mapOf [("a", (1 : Nat))]]) =
      (Data.mapSlice [mapOf [("a", 1)]], none)) :=
  ⟨⟨by decide, rfl⟩,
    normalize_sequence_destination sliceOfMaps sliceOfMaps _ (by decide) rfl⟩

/-- C8: when the guard of line 95 does not apply, an empty sequence of maps is
answered by the nil value, which is not the empty sequence, and a nil
error. -/
theorem normalize_empty {V : Type} (src dst : GoType)
    (h : ¬ sequenceToSequence src dst) :
    HookNormalizeHCLNestedBlocks src dst (Data.mapSlice ([] : List (GoMap V))) =
        (Data.null, none) ∧
      (Data.null : Data V) ≠ Data.mapSlice [] := by
  rw [normalize_no_guard src dst _ h]
  exact ⟨rfl, by simp⟩

theorem normalize_empty_witness :
    ¬ sequenceToSequence sliceOfMaps plainStruct ∧
      (HookNormalizeHCLNestedBlocks sliceOfMaps plainStruct
          (Data.mapSlice ([] : List (GoMap Nat))) = (Data.null, none) ∧
        (Data.null : Data Nat) ≠ Data.mapSlice []) :=
  ⟨by decide, normalize_empty sliceOfMaps plainStruct (by decide)⟩

/-- C9: for a destination type that is not a pointer and has `DecodeKeyMapping`
neither in its own method set nor in that of its pointer type, the hook
returns the map it was given, entry for entry, and a nil error, whatever the
keys of the map and the visiting order. -/
theorem translate_no_capability {V : Type} (toLower : String → String)
    (order : List String) (src dst : GoType) (m : GoMap V)
    (hkind : dst.kind ≠ Kind.Ptr) (hval : dst.valueMethod = none)
    (hptr : dst.pointerMethod = none) :
    HookTranslateKeys toLower order src dst (Data.mapping m) =
      some (Data.mapping m, none) := by
  simp [HookTranslateKeys, hkind, translatorOf, hval, hptr]

theorem translate_no_capability_witness :
    (plainStruct.kind ≠ Kind.Ptr ∧ plainStruct.valueMethod = none ∧
      plainStruct.pointerMethod = none) ∧
    HookTranslateKeys asciiLower ["one", "two"] plainStruct plainStruct
        (Data.mapping (mapOf [("one", (1 : Nat)), ("two", 2)])) =
      some (Data.mapping (mapOf [("one", 1), ("two", 2)]), none) :=
  ⟨⟨by decide, rfl, rfl⟩,
    translate_no_capability asciiLower _ plainStruct plainStruct _ (by decide) rfl rfl⟩

/-- C10: for a pointer destination type, also one whose element type provides
a key mapping, the hook returns every source value unchanged, a map with
deprecated keys included, and a nil error. -/
theorem translate_pointer_destination {V : Type} (toLower : String → String)
    (order : List String) (src dst : GoType) (data : Data V)
    (hkind : dst.kind = Kind.Ptr) :
    HookTranslateKeys toLower order src dst data = some (data, none) := by
  simp [HookTranslateKeys, hkind]

theorem translate_pointer_destination_witness :
    (pointerToTranslator (mapOf [("oldone", "One")])).kind = Kind.Ptr ∧
    HookTranslateKeys asciiLower ["OldOne"] plainStruct
        (pointerToTranslator (mapOf [("oldone", "One")]))
        (Data.mapping (mapOf [("OldOne", (1 : Nat))])) =
      some (Data.mapping (mapOf [("OldOne", 1)]), none) :=
  ⟨rfl, translate_pointer_destination asciiLower _ plainStruct _ _ rfl⟩

/-- C11: a destination type that is not a pointer and provides `R` through a
method with a value receiver (a concrete type, so not an interface type) and
one that provides `R` through a method with a pointer receiver yield, for
every map and under the same visiting order, the same translated map and a
nil error. -/
theorem translate_capability_forms {V : Type} (toLower : String → String)
    (order : List String) (src1 src2 byValue byPointer : GoType) (R : Rules) (m : GoMap V)
    (hvk : byValue.kind ≠ Kind.Ptr) (hvi : byValue.kind ≠ Kind.Interface)
    (hv : byValue.valueMethod = some R)
    (hpk : byPointer.kind ≠ Kind.Ptr) (hp1 : byPointer.valueMethod = none)
    (hp2 : byPointer.pointerMethod = some R) :
    HookTranslateKeys toLower order src1 byValue (Data.mapping m) =
        some (Data.mapping (rangeLoop toLower R order m), none) ∧
      HookTranslateKeys toLower order src2 byPointer (Data.mapping m) =
        some (Data.mapping (rangeLoop toLower R order m), none) := by
  constructor
  · exact translate_eq_rangeLoop toLower order src1 byValue R m hvk
      (by simp [translatorOf, hv, hvi])
  · exact translate_eq_rangeLoop toLower order src2 byPointer R m hpk
      (by simp [translatorOf, hp1, hp2])

theorem translate_capability_forms_witness :
    ((structWithMapping typePtrToStructRules).kind ≠ Kind.Ptr ∧
      (structWithMapping typePtrToStructRules).kind ≠ Kind.Interface ∧
      (structWithMapping typePtrToStructRules).valueMethod = some typePtrToStructRules ∧
      TypePtrToStruct.kind ≠ Kind.Ptr ∧ TypePtrToStruct.valueMethod = none ∧
      TypePtrToStruct.pointerMethod = some typePtrToStructRules) ∧
    (HookTranslateKeys asciiLower ["old_four", "None", "old_THREE"] mapOfInterfaces
        (structWithMapping typePtrToStructRules) (Data.mapping embeddedPointerData) =
        some (Data.mapping (rangeLoop asciiLower typePtrToStructRules
          ["old_four", "None", "old_THREE"] embeddedPointerData), none) ∧
      HookTranslateKeys asciiLower ["old_four", "None", "old_THREE"] mapOfInterfaces
        TypePtrToStruct (Data.mapping embeddedPointerData) =
        some (Data.mapping (rangeLoop asciiLower typePtrToStructRules
          ["old_four", "None", "old_THREE"] embeddedPointerData), none)) :=
  ⟨⟨by decide, by decide, rfl, by decide, rfl, rfl⟩,
    translate_capability_forms asciiLower _ mapOfInterfaces mapOfInterfaces
      (structWithMapping typePtrToStructRules) TypePtrToStruct typePtrToStructRules
      embeddedPointerData (by decide) (by decide) rfl (by decide) rfl rfl⟩

/-- C12, failing input: for the interface type `KeyTranslator` as destination
type and a map as value, `to.Implements(typeOfKeyTranslator)` holds,
`reflect.Zero(to).Interface()` is the nil interface and the type assertion
of line 55 panics: the hook does not return a nil error, it does not return
at all. -/
theorem translate_interface_destination_panics :
    keyTranslatorInterface.kind ≠ Kind.Ptr ∧
      translatorOf keyTranslatorInterface = Translator.panics ∧
      HookTranslateKeys asciiLower ["a"] mapOfInterfaces keyTranslatorInterface
        (Data.mapping (mapOf [("a", "1")])) = none :=
  ⟨by decide, rfl, rfl⟩

/-- C13, counterexample: a one-element sequence of maps whose element holds a
deprecated key, for the destination type `TypeStruct`.  The translator sees
no map in the sequence and the normalizer then returns the element with its
deprecated key; in the other order the normalizer returns the element and
the translator renames its key. -/
theorem hooks_commute_counterexample :
    translateThenNormalize asciiLower ["OldOne"] dynamicType TypeStruct wrappedDeprecated =
        some (Data.mapping (mapOf [("OldOne", "value1")]), none) ∧
      normalizeThenTranslate asciiLower ["OldOne"] dynamicType TypeStruct wrappedDeprecated =
        some (Data.mapping (mapOf [("One", "value1")]), none) ∧
      translateThenNormalize asciiLower ["OldOne"] dynamicType TypeStruct wrappedDeprecated ≠
        normalizeThenTranslate asciiLower ["OldOne"] dynamicType TypeStruct
          wrappedDeprecated := by
  have hA : translateThenNormalize asciiLower ["OldOne"] dynamicType TypeStruct
      wrappedDeprecated = some (Data.mapping (mapOf [("OldOne", "value1")]), none) := rfl
  have hB : normalizeThenTranslate asciiLower ["OldOne"] dynamicType TypeStruct
      wrappedDeprecated = some (Data.mapping (mapOf [("One", "value1")]), none) := rfl
  refine ⟨hA, hB, ?_⟩
  rw [hA, hB]
  intro h
  have hm : (mapOf [("OldOne", "value1")] : GoMap String) = mapOf [("One", "value1")] := by
    injection h with h1
    injection h1 with h2
    injection h2
  have hl := congrArg (fun t : GoMap String => t.lookup "One") hm
  revert hl
  decide

/-- C13, amended: for every destination type and source value, applying the
translator and then the normalizer gives the same final value and error as
applying the normalizer and then the translator, provided that, when the
value is a one-element sequence of maps that the normalizer collapses, the
translator leaves its element unchanged for that destination type. -/
theorem hooks_commute {V : Type} (toLower : String → String) (order : List String)
    (typeOf : Data V → GoType) (dst : GoType) (data : Data V)
    (hstable : ∀ e, data = Data.mapSlice [e] → ¬ sequenceToSequence (typeOf data) dst →
      HookTranslateKeys toLower order (typeOf (Data.mapping e)) dst (Data.mapping e) =
        some (Data.mapping e, none)) :
    translateThenNormalize toLower order typeOf dst data =
      normalizeThenTranslate toLower order typeOf dst data := by
  cases data with
  | null =>
    have ht : ∀ s, HookTranslateKeys toLower order s dst (Data.null : Data V) =
        some (Data.null, none) :=
      fun s => translate_of_not_mapping toLower order s dst _ (by intro m; simp)
    have hn : ∀ s, HookNormalizeHCLNestedBlocks s dst (Data.null : Data V) =
        (Data.null, none) := by
      intro s
      by_cases h : sequenceToSequence s dst
      · exact normalize_guard s dst _ h
      · exact normalize_no_guard s dst _ h
    simp only [translateThenNormalize, normalizeThenTranslate, ht, hn]
  | other v =>
    have ht : ∀ s, HookTranslateKeys toLower order s dst (Data.other v) =
        some (Data.other v, none) :=
      fun s => translate_of_not_mapping toLower order s dst _ (by intro m; simp)
    have hn : ∀ s, HookNormalizeHCLNestedBlocks s dst (Data.other v) =
        (Data.other v, none) := by
      intro s
      by_cases h : sequenceToSequence s dst
      · exact normalize_guard s dst _ h
      · exact normalize_no_guard s dst _ h
    simp only [translateThenNormalize, normalizeThenTranslate, ht, hn]
  | mapping m =>
    have hn : ∀ s (x : GoMap V), HookNormalizeHCLNestedBlocks s dst (Data.mapping x) =
        (Data.mapping x, none) := by
      intro s x
      by_cases h : sequenceToSequence s dst
      · exact normalize_guard s dst _ h
      · exact normalize_no_guard s dst _ h
    rcases translate_mapping_cases toLower order (typeOf (Data.mapping m)) dst m with
      h | ⟨result, h⟩
    · simp only [translateThenNormalize, normalizeThenTranslate, hn, h]
    · simp only [translateThenNormalize, normalizeThenTranslate, hn, h]
  | mapSlice ms =>
    have ht : ∀ s, HookTranslateKeys toLower order s dst (Data.mapSlice ms) =
        some (Data.mapSlice ms, none) :=
      fun s => translate_of_not_mapping toLower order s dst _ (by intro m; simp)
    have htn : ∀ s, HookTranslateKeys toLower order s dst (Data.null : Data V) =
        some (Data.null, none) :=
      fun s => translate_of_not_mapping toLower order s dst _ (by intro m; simp)
    by_cases hg : sequenceToSequence (typeOf (Data.mapSlice ms)) dst
    · simp only [translateThenNormalize, normalizeThenTranslate, ht,
        normalize_guard _ dst _ hg]
    · match ms, hstable, ht, hg with
      | [], _, ht, hg =>
        have e : HookNormalizeHCLNestedBlocks (typeOf (Data.mapSlice ([] : List (GoMap V))))
            dst (Data.mapSlice ([] : List (GoMap V))) = (Data.null, none) :=
          normalize_no_guard _ dst _ hg
        simp only [translateThenNormalize, normalizeThenTranslate, ht, e, htn]
      | [x], hstable, ht, hg =>
        have e : HookNormalizeHCLNestedBlocks (typeOf (Data.mapSlice [x]))
            dst (Data.mapSlice [x]) = (Data.mapping x, none) := normalize_no_guard _ dst _ hg
        simp only [translateThenNormalize, normalizeThenTranslate, ht, e,
          hstable x rfl hg]
      | a :: b :: t, _, ht, hg =>
        have e : HookNormalizeHCLNestedBlocks (typeOf (Data.mapSlice (a :: b :: t)))
            dst (Data.mapSlice (a :: b :: t)) =
            (Data.mapSlice (a :: b :: t),
              some (HookError.nestedBlockMultipleElements (Data.mapSlice (a :: b :: t)))) :=
          normalize_no_guard _ dst _ hg
        simp only [translateThenNormalize, normalizeThenTranslate, ht, e]

theorem hooks_commute_witness :
    (∀ e, wrappedCanonical = Data.mapSlice [e] →
      ¬ sequenceToSequence (dynamicType wrappedCanonical) TypeStruct →
      HookTranslateKeys asciiLower ["None"] (dynamicType (Data.mapping e)) TypeStruct
        (Data.mapping e) = some (Data.mapping e, none)) ∧
    translateThenNormalize asciiLower ["None"] dynamicType TypeStruct wrappedCanonical =
      normalizeThenTranslate asciiLower ["None"] dynamicType TypeStruct wrappedCanonical :=
  have hstable : ∀ e, wrappedCanonical = Data.mapSlice [e] →
      ¬ sequenceToSequence (dynamicType wrappedCanonical) TypeStruct →
      HookTranslateKeys asciiLower ["None"] (dynamicType (Data.mapping e)) TypeStruct
        (Data.mapping e) = some (Data.mapping e, none) := by
    intro e he _
    have h1 : [mapOf [("None", "no translation")]] = [e] := by
      unfold wrappedCanonical at he
      injection he
    have h2 : mapOf [("None", "no translation")] = e := by
      injection h1
    subst h2
    rfl
  ⟨hstable, hooks_commute asciiLower ["None"] dynamicType TypeStruct wrappedCanonical hstable⟩

/-- C14, counterexample: with the rules `{"a": "b", "b": "c"}` and the map
`{"a": "1"}`, a first translation returns `{"b": "1"}` and a second
translation of that map returns `{"c": "1"}`, not the map it was given. -/
theorem translate_idempotent_counterexample :
    (structWithMapping chainRules).kind ≠ Kind.Ptr ∧
    translatorOf (structWithMapping chainRules) = Translator.rules chainRules ∧
    permittedOrder asciiLower chainRules ["a"] chainStart = true ∧
    HookTranslateKeys asciiLower ["a"] mapOfInterfaces (structWithMapping chainRules)
        (Data.mapping chainStart) =
      some (Data.mapping (mapOf [("b", "1")]), none) ∧
    permittedOrder asciiLower chainRules ["b"] (mapOf [("b", "1")] : GoMap String) = true ∧
    HookTranslateKeys asciiLower ["b"] mapOfInterfaces (structWithMapping chainRules)
        (Data.mapping (mapOf [("b", "1")])) =
      some (Data.mapping (mapOf [("c", "1")]), none) ∧
    (mapOf [("c", "1")] : GoMap String).lookup "b" ≠
      (mapOf [("b", "1")] : GoMap String).lookup "b" := by
  refine ⟨by decide, rfl, by decide, rfl, by decide, rfl, by decide⟩

/-- C14, amended: for a destination type that is not a pointer and whose key
mapping is `R`, where no canonical key of `R` lowercases to a deprecated key
of `R`: the map returned by a first translation of `m`, under any permitted
visiting order, is returned unchanged by a second translation for the same
destination type, under every visiting order. -/
theorem translate_idempotent {V : Type} (toLower : String → String)
    (order1 order2 : List String) (src1 src2 dst : GoType) (R : Rules) (m : GoMap V)
    (hkind : dst.kind ≠ Kind.Ptr) (htr : translatorOf dst = Translator.rules R)
    (hchain : NoChain toLower R)
    (hperm : permittedOrder toLower R order1 m = true) :
    ∃ result, HookTranslateKeys toLower order1 src1 dst (Data.mapping m) =
        some (Data.mapping result, none) ∧
      HookTranslateKeys toLower order2 src2 dst (Data.mapping result) =
        some (Data.mapping result, none) := by
  refine ⟨rangeLoop toLower R order1 m,
    translate_eq_rangeLoop toLower order1 src1 dst R m hkind htr, ?_⟩
  rw [translate_eq_rangeLoop toLower order2 src2 dst R _ hkind htr,
    rangeLoop_of_settled toLower R order2 _ (rangeLoop_settled toLower R hchain order1 m hperm)]

theorem translate_idempotent_witness :
    (TypeStruct.kind ≠ Kind.Ptr ∧
      translatorOf TypeStruct = Translator.rules typeStructRules ∧
      NoChain asciiLower typeStructRules ∧
      permittedOrder asciiLower typeStructRules ["oldtwo", "None", "OldOne"]
        structReceiverData = true) ∧
    ∃ result, HookTranslateKeys asciiLower ["oldtwo", "None", "OldOne"] mapOfInterfaces
        TypeStruct (Data.mapping structReceiverData) =
        some (Data.mapping result, none) ∧
      HookTranslateKeys asciiLower ["One", "two", "None"] mapOfInterfaces TypeStruct
        (Data.mapping result) = some (Data.mapping result, none) :=
  have hchain : NoChain asciiLower typeStructRules :=
    noChain_of_entries asciiLower typeStructRules (by decide)
  ⟨⟨by decide, rfl, hchain, by decide⟩,
    translate_idempotent asciiLower _ _ mapOfInterfaces mapOfInterfaces TypeStruct
      typeStructRules structReceiverData (by decide) rfl hchain (by decide)⟩

/-- C15, counterexample: with the rules of `TypeStruct` and the map
`{"OldOne": "value1", "oldone": "value2"}`, both visiting orders are
permitted; the one that starts with `oldone` leaves `value2` under `One`,
the one that starts with `OldOne` leaves `value1` there. -/
theorem translate_order_independent_counterexample :
    TypeStruct.kind ≠ Kind.Ptr ∧
    translatorOf TypeStruct = Translator.rules typeStructRules ∧
    permittedOrder asciiLower typeStructRules ["oldone", "OldOne"] twoSpellings = true ∧
    permittedOrder asciiLower typeStructRules ["OldOne", "oldone"] twoSpellings = true ∧
    HookTranslateKeys asciiLower ["oldone", "OldOne"] mapOfInterfaces TypeStruct
        (Data.mapping twoSpellings) =
      some (Data.mapping (mapOf [("One", "value2"), ("OldOne", "value1")]), none) ∧
    HookTranslateKeys asciiLower ["OldOne", "oldone"] mapOfInterfaces TypeStruct
        (Data.mapping twoSpellings) =
      some (Data.mapping (mapOf [("One", "value1"), ("oldone", "value2")]), none) ∧
    (mapOf [("One", "value2"), ("OldOne", "value1")] : GoMap String).lookup "One" ≠
      (mapOf [("One", "value1"), ("oldone", "value2")] : GoMap String).lookup "One" := by
  refine ⟨by decide, rfl, by decide, by decide, rfl, rfl, by decide⟩

/-- C15, amended: for a destination type that is not a pointer and whose key
mapping is `R`, where no canonical key of `R` lowercases to a deprecated key
of `R`, and a map `m` no two keys of which lowercase to deprecated keys with
the same canonical key absent from `m`: the translated map has the same
entries under every two permitted visiting orders. -/
theorem translate_order_independent {V : Type} (toLower : String → String)
    (order1 order2 : List String) (src dst : GoType) (R : Rules) (m : GoMap V)
    (hkind : dst.kind ≠ Kind.Ptr) (htr : translatorOf dst = Translator.rules R)
    (hperm1 : permittedOrder toLower R order1 m = true)
    (hperm2 : permittedOrder toLower R order2 m = true)
    (hshared : NoSharedFreeCanonical toLower R m) (hchain : NoChain toLower R) :
    ∃ result1 result2,
      HookTranslateKeys toLower order1 src dst (Data.mapping m) =
        some (Data.mapping result1, none) ∧
      HookTranslateKeys toLower order2 src dst (Data.mapping m) =
        some (Data.mapping result2, none) ∧
      (∀ x, result1.lookup x = result2.lookup x) ∧
      result1.entries.Perm result2.entries := by
  have hl := rangeLoop_order_irrelevant toLower R order1 order2 m hperm1 hperm2 hshared hchain
  refine ⟨rangeLoop toLower R order1 m, rangeLoop toLower R order2 m,
    translate_eq_rangeLoop toLower order1 src dst R m hkind htr,
    translate_eq_rangeLoop toLower order2 src dst R m hkind htr, hl, ?_⟩
  apply List.lookup_ext (AList.nodupKeys _) (AList.nodupKeys _)
  intro x y
  have := hl x
  unfold AList.lookup at this
  rw [this]

theorem translate_order_independent_witness :
    (TypeStruct.kind ≠ Kind.Ptr ∧
      translatorOf TypeStruct = Translator.rules typeStructRules ∧
      permittedOrder asciiLower typeStructRules ["oldtwo", "None", "OldOne"]
        structReceiverData = true ∧
      permittedOrder asciiLower typeStructRules ["None", "OldOne", "oldtwo"]
        structReceiverData = true ∧
      NoSharedFreeCanonical asciiLower typeStructRules structReceiverData ∧
      NoChain asciiLower typeStructRules) ∧
    ∃ result1 result2,
      HookTranslateKeys asciiLower ["oldtwo", "None", "OldOne"] mapOfInterfaces TypeStruct
        (Data.mapping structReceiverData) = some (Data.mapping result1, none) ∧
      HookTranslateKeys asciiLower ["None", "OldOne", "oldtwo"] mapOfInterfaces TypeStruct
        (Data.mapping structReceiverData) = some (Data.mapping result2, none) ∧
      (∀ x, result1.lookup x = result2.lookup x) ∧
      result1.entries.Perm result2.entries :=
  have hshared : NoSharedFreeCanonical asciiLower typeStructRules structReceiverData :=
    noSharedFreeCanonical_of_keys asciiLower typeStructRules structReceiverData (by decide)
  have hchain : NoChain asciiLower typeStructRules :=
    noChain_of_entries asciiLower typeStructRules (by decide)
  ⟨⟨by decide, rfl, by decide, by decide, hshared, hchain⟩,
    translate_order_independent asciiLower _ _ mapOfInterfaces TypeStruct typeStructRules
      structReceiverData (by decide) rfl (by decide) (by decide) hshared hchain⟩

/-- C16, counterexample: with the rules `{"a": "b", "b": "c"}` and the map
`{"a": "1"}`, the loop renames `a` to `b`; the entry `b` was created during
the loop, which Go may produce as well, and it is then renamed to `c`: the
value `1` ends under `c`, neither the key it had nor the canonical key of
that key. -/
theorem translate_once_counterexample :
    (structWithMapping chainRules).kind ≠ Kind.Ptr ∧
    translatorOf (structWithMapping chainRules) = Translator.rules chainRules ∧
    permittedOrder asciiLower chainRules ["a", "b"] chainStart = true ∧
    HookTranslateKeys asciiLower ["a", "b"] mapOfInterfaces (structWithMapping chainRules)
        (Data.mapping chainStart) =
      some (Data.mapping (mapOf [("c", "1")]), none) ∧
    (mapOf [("c", "1")] : GoMap String).lookup "c" = some "1" ∧
    chainStart.lookup "c" = none ∧
    chainStart.lookup "a" = some "1" ∧
    chainRules.lookup (asciiLower "a") = some "b" ∧
    chainRules.lookup (asciiLower "b") = some "c" ∧
    ¬ (∀ x w, (mapOf [("c", "1")] : GoMap String).lookup x = some w →
        chainStart.lookup x = some w ∨
          ∃ k, chainStart.lookup k = some w ∧
            chainRules.lookup (asciiLower k) = some x) := by
  refine ⟨by decide, rfl, by decide, rfl, by decide, by decide, by decide, by decide,
    by decide, ?_⟩
  intro h
  rcases h "c" "1" (by decide) with h1 | ⟨k, hk, hr⟩
  · exact absurd h1 (by decide)
  · have hmem := AList.mem_lookup_iff.mp hk
    have hka : k = "a" := by
      have : (⟨k, "1"⟩ : Sigma (fun _ : String => String)) ∈
          [(⟨"a", "1"⟩ : Sigma (fun _ : String => String))] := hmem
      simp at this
      exact this
    subst hka
    exact absurd hr (by decide)

/-- C16, amended: for a destination type that is not a pointer and whose key
mapping is `R`, every map `m` and every visiting order, provided that no
canonical key of `R` lowercases to a deprecated key of `R`, or that the order
produces each key at most once and only keys that `m` held at loop entry (no
entry created during the loop): each value of the result sits under the key
`k` it had in `m` or under the canonical key `R[toLower k]`. -/
theorem translate_once {V : Type} (toLower : String → String)
    (order : List String) (src dst : GoType) (R : Rules) (m : GoMap V)
    (hkind : dst.kind ≠ Kind.Ptr) (htr : translatorOf dst = Translator.rules R)
    (h : NoChain toLower R ∨ (order.Nodup ∧ ∀ k ∈ order, k ∈ m)) :
    ∃ result, HookTranslateKeys toLower order src dst (Data.mapping m) =
        some (Data.mapping result, none) ∧
      ∀ x w, result.lookup x = some w →
        m.lookup x = some w ∨
          ∃ k, m.lookup k = some w ∧ R.lookup (toLower k) = some x := by
  refine ⟨rangeLoop toLower R order m,
    translate_eq_rangeLoop toLower order src dst R m hkind htr, ?_⟩
  rcases h with hchain | ⟨hnd, hsub⟩
  · exact rangeLoop_stemsFrom toLower R hchain order m
  · exact rangeLoop_stemsFrom_initial toLower R m order m hnd hsub
      (fun _ _ hx => Or.inl hx) (fun _ _ => rfl)

theorem translate_once_witness :
    ((structWithMapping chainRules).kind ≠ Kind.Ptr ∧
      translatorOf (structWithMapping chainRules) = Translator.rules chainRules ∧
      (NoChain asciiLower chainRules ∨
        (["b", "a"].Nodup ∧ ∀ k ∈ ["b", "a"], k ∈ chainData))) ∧
    ∃ result, HookTranslateKeys asciiLower ["b", "a"] mapOfInterfaces
        (structWithMapping chainRules) (Data.mapping chainData) =
        some (Data.mapping result, none) ∧
      ∀ x w, result.lookup x = some w →
        chainData.lookup x = some w ∨
          ∃ k, chainData.lookup k = some w ∧ chainRules.lookup (asciiLower k) = some x :=
  ⟨⟨by decide, rfl, Or.inr ⟨by decide, by decide⟩⟩,
    translate_once asciiLower ["b", "a"] mapOfInterfaces (structWithMapping chainRules)
      chainRules chainData (by decide) rfl (Or.inr ⟨by decide, by decide⟩)⟩

/-- C17: for a destination type that is not a pointer and whose key mapping is
`R`, the translated map has, under every visiting order, exactly as many
entries as `m` and the same values with the same multiplicities. -/
theorem translate_preserves_entries {V : Type} (toLower : String → String)
    (order : List String) (src dst : GoType) (R : Rules) (m : GoMap V)
    (hkind : dst.kind ≠ Kind.Ptr) (htr : translatorOf dst = Translator.rules R) :
    ∃ result, HookTranslateKeys toLower order src dst (Data.mapping m) =
        some (Data.mapping result, none) ∧
      result.entries.length = m.entries.length ∧
      (values result).Perm (values m) ∧
      (Multiset.ofList (values result) = Multiset.ofList (values m)) := by
  have h := rangeLoop_entries toLower R order m
  exact ⟨rangeLoop toLower R order m,
    translate_eq_rangeLoop toLower order src dst R m hkind htr,
    h.1, h.2, Quotient.sound h.2⟩

theorem translate_preserves_entries_witness :
    ((structWithMapping chainRules).kind ≠ Kind.Ptr ∧
      translatorOf (structWithMapping chainRules) = Translator.rules chainRules) ∧
    ∃ result, HookTranslateKeys asciiLower ["b", "a", "b"] mapOfInterfaces
        (structWithMapping chainRules) (Data.mapping chainData) =
        some (Data.mapping result, none) ∧
      result.entries.length = chainData.entries.length ∧
      (values result).Perm (values chainData) ∧
      (Multiset.ofList (values result) = Multiset.ofList (values chainData)) :=
  ⟨⟨by decide, rfl⟩,
    translate_preserves_entries asciiLower _ mapOfInterfaces (structWithMapping chainRules)
      chainRules chainData (by decide) rfl⟩

/-- C18: for a destination type that is not a pointer and whose key mapping is
`R`, every key `k` of `m` whose lowercase form is not a deprecated key of `R`
is still a key of the translated map, with the value `m[k]`, under every
visiting order. -/
theorem translate_keeps_unrelated {V : Type} (toLower : String → String)
    (order : List String) (src dst : GoType) (R : Rules) (m : GoMap V)
    (k : String) (v : V)
    (hkind : dst.kind ≠ Kind.Ptr) (htr : translatorOf dst = Translator.rules R)
    (hk : m.lookup k = some v) (hr : R.lookup (toLower k) = none) :
    ∃ result, HookTranslateKeys toLower order src dst (Data.mapping m) =
        some (Data.mapping result, none) ∧
      k ∈ result ∧ result.lookup k = some v := by
  have h := rangeLoop_keeps_unrelated toLower R order m k v hk hr
  exact ⟨rangeLoop toLower R order m,
    translate_eq_rangeLoop toLower order src dst R m hkind htr,
    AList.lookup_isSome.mp (by rw [h]; rfl), h⟩

theorem translate_keeps_unrelated_witness :
    (TypeStruct.kind ≠ Kind.Ptr ∧
      translatorOf TypeStruct = Translator.rules typeStructRules ∧
      structReceiverData.lookup "None" = some "no translation" ∧
      typeStructRules.lookup (asciiLower "None") = none) ∧
    ∃ result, HookTranslateKeys asciiLower ["OldOne", "oldtwo", "None"] mapOfInterfaces
        TypeStruct (Data.mapping structReceiverData) =
        some (Data.mapping result, none) ∧
      "None" ∈ result ∧ result.lookup "None" = some "no translation" :=
  ⟨⟨by decide, rfl, by decide, by decide⟩,
    translate_keeps_unrelated asciiLower _ mapOfInterfaces TypeStruct typeStructRules
      structReceiverData "None" "no translation" (by decide) rfl (by decide) (by decide)⟩

/-- C19: applying the normalizer, with the same pair of types, to the value it
returned gives that value again and the same error: the second application
returns exactly what the first one returned. -/
theorem normalize_idempotent {V : Type} (src dst : GoType) (data : Data V) :
    HookNormalizeHCLNestedBlocks src dst (HookNormalizeHCLNestedBlocks src dst data).1 =
        HookNormalizeHCLNestedBlocks src dst data ∧
      (HookNormalizeHCLNestedBlocks src dst
          (HookNormalizeHCLNestedBlocks src dst data).1).1 =
        (HookNormalizeHCLNestedBlocks src dst data).1 ∧
      ((HookNormalizeHCLNestedBlocks src dst
          (HookNormalizeHCLNestedBlocks src dst data).1).2 = none ↔
        (HookNormalizeHCLNestedBlocks src dst data).2 = none) := by
  have key : HookNormalizeHCLNestedBlocks src dst
      (HookNormalizeHCLNestedBlocks src dst data).1 =
      HookNormalizeHCLNestedBlocks src dst data := by
    by_cases h : sequenceToSequence src dst
    · rw [normalize_guard src dst data h, normalize_guard src dst data h]
    · cases data with
      | mapSlice ms =>
        match ms with
        | [] =>
          have e : HookNormalizeHCLNestedBlocks src dst (Data.mapSlice ([] : List (GoMap V))) =
              (Data.null, none) := normalize_no_guard src dst _ h
          rw [e]
          exact normalize_no_guard src dst Data.null h
        | [x] =>
          have e : HookNormalizeHCLNestedBlocks src dst (Data.mapSlice [x]) =
              (Data.mapping x, none) := normalize_no_guard src dst _ h
          rw [e]
          exact normalize_no_guard src dst (Data.mapping x) h
        | a :: b :: t =>
          have e : HookNormalizeHCLNestedBlocks src dst (Data.mapSlice (a :: b :: t)) =
              (Data.mapSlice (a :: b :: t),
                some (HookError.nestedBlockMultipleElements (Data.mapSlice (a :: b :: t)))) :=
            normalize_no_guard src dst _ h
          rw [e]
          exact e
      | null =>
        have e : HookNormalizeHCLNestedBlocks src dst (Data.null : Data V) =
            (Data.null, none) := normalize_no_guard src dst _ h
        rw [e]
        exact e
      | mapping m =>
        have e : HookNormalizeHCLNestedBlocks src dst (Data.mapping m) =
            (Data.mapping m, none) := normalize_no_guard src dst _ h
        rw [e]
        exact e
      | other v =>
        have e : HookNormalizeHCLNestedBlocks src dst (Data.other v) =
            (Data.other v, none) := normalize_no_guard src dst _ h
        rw [e]
        exact e
  exact ⟨key, by rw [key], by rw [key]⟩

end Decode
